import Mathlib

/-!
jenkins-flake-report: aggregation, ranking, filtering and matrix building.

A shallow embedding of `main.go`: the functions `filter`, `analyze`, `unique` and `render`
and the checks of `main` on its flags, together with the parts of the Go runtime and
libraries they lean on.

Modelling conventions.

* Go `int` values (run numbers, counters) are mathematical integers. The loops
  `for run := start; run <= end; run++` are run for the `end - start + 1` values of the
  counter (none when `end < start`). This agrees with the 64-bit loop for `end < 2^63 - 1`,
  where the counter never wraps (at `end = 2^63 - 1` the condition `run <= end` cannot fail
  and the machine loop does not exit by it). The counters `Count` and `FailedOn[..]` would
  need `2^63` failures to wrap.
* Go strings are `String`; `<` on strings is the lexicographic order.
* A Go map is an association list with pairwise distinct keys. The order in which `range`
  visits a map is not defined by the language: every such loop takes a `RangeOrder`, an
  arbitrary rearrangement of the entries. The same device stands for the freedom that the
  unstable `sort.Slice` has among elements that compare equal.
* `float64` and gonum's `stat.StdDev` are outside the repository: `analyze` is parametric in a
  `FloatOps` record providing them.
* The cache directory is a function from run numbers to the outcome of opening and decoding
  `run-<n>.json`.
-/

namespace FlakeReport

/-! ## Go runtime: map iteration order, maps, integer ranges, sorting -/

/-- A rearrangement of the elements of any list: the order in which a `range` loop visits the
entries of a map. -/
structure RangeOrder (α : Type) where
  order : List α → List α
  perm : ∀ l, (order l).Perm l

/-- The iteration order that visits entries in insertion order. -/
def RangeOrder.insertion (α : Type) : RangeOrder α :=
  ⟨fun l => l, fun l => List.Perm.refl l⟩

/-- The iteration order that visits entries in reverse insertion order. -/
def RangeOrder.reversed (α : Type) : RangeOrder α :=
  ⟨List.reverse, fun l => List.reverse_perm l⟩

/-- A Go map `map[κ]ν`: its entries, keys pairwise distinct. The nil map and the empty map
are both `[]` (they read alike, and `analyze` replaces a nil `FailedOn` by an empty map before
the first write). -/
abbrev GoMap (κ ν : Type) := List (κ × ν)

/-- The two-result read `v, ok := m[k]`. -/
def GoMap.find? {κ ν : Type} [DecidableEq κ] : GoMap κ ν → κ → Option ν
  | [], _ => none
  | (k', v) :: m, k => if k' = k then some v else GoMap.find? m k

/-- The read `m[k]`, which yields the zero value of `ν` for an absent key. -/
def GoMap.get {κ ν : Type} [DecidableEq κ] (m : GoMap κ ν) (k : κ) (zero : ν) : ν :=
  (GoMap.find? m k).getD zero

/-- The write `m[k] = v`. -/
def GoMap.store {κ ν : Type} [DecidableEq κ] : GoMap κ ν → κ → ν → GoMap κ ν
  | [], k, v => [(k, v)]
  | (k', v') :: m, k, v => if k' = k then (k, v) :: m else (k', v') :: GoMap.store m k v

/-- The values `i, i+1, ...` taken by a counter over `n` iterations. -/
def countFrom : Nat → Int → List Int
  | 0, _ => []
  | n + 1, i => i :: countFrom n (i + 1)

/-- The values of `i` in `for i := start; i <= end; i++`. -/
def forRange (start end_ : Int) : List Int :=
  countFrom (end_ + 1 - start).toNat start

/-- The comparison `a < b` of two Go strings. -/
def strLess (a b : String) : Bool := decide (a.data < b.data)

/-- The stable `sort.SliceStable(x, less)`: elements that `less` does not separate keep their
relative order. -/
def sortSliceStable {α : Type} (less : α → α → Bool) (x : List α) : List α :=
  x.insertionSort (fun a b => less b a = false)

/-- The unstable `sort.Slice(x, less)`: sorted by `less`, with elements that `less` does not
separate placed in an order of the library's choosing. -/
def sortSlice {α : Type} (ord : RangeOrder α) (less : α → α → Bool) (x : List α) : List α :=
  sortSliceStable less (ord.order x)

/-! ## float64 and the statistics library -/

/-- The operations on `float64` used by the program. -/
structure FloatOps (F : Type) where
  /-- The zero value of `float64`. -/
  zero : F
  /-- The conversion `float64(r)`. -/
  ofInt : Int → F
  /-- The test `math.IsNaN`. -/
  isNaN : F → Bool
  /-- The call `stat.StdDev(in, nil)`. -/
  stdDev : List F → F
  /-- The comparison `x > 1`. -/
  gtOne : F → Bool

/-- An exact stand-in for the `float64` values the program handles: NaN, an integer, or the
square root of the fraction `num / den`. -/
inductive XFloat
  | nan
  | int (n : Int)
  | sqrt (num : Int) (den : Nat)
  deriving DecidableEq

/-- The integer behind an `XFloat`, when it is one. -/
def XFloat.toInt? : XFloat → Option Int
  | .int n => some n
  | _ => none

/-- Numerator of the sample variance of `n` integer samples written over the denominator
`n * (n - 1)`: the sum of squared deviations from the mean, divided by `n - 1` (gonum's
unweighted `stat.Variance`), is `(n * Σ x² - (Σ x)²) / (n * (n - 1))`. -/
def sampleVarianceNum (xs : List Int) : Int :=
  xs.length * (xs.map (fun x => x * x)).sum - xs.sum * xs.sum

/-- Exact arithmetic on `XFloat`. gonum documents `stat.StdDev` as the sample standard
deviation, the square root of the unbiased variance `Σ (x - mean)² / (n - 1)`; it is NaN for
fewer than two samples, where the variance is `0/0` (the case `analyze` guards against with
`math.IsNaN`). -/
def exactFloat : FloatOps XFloat where
  zero := .int 0
  ofInt := .int
  isNaN := fun x => match x with
    | .nan => true
    | _ => false
  stdDev := fun xs =>
    match xs.mapM XFloat.toInt? with
    | none => .nan
    | some ns =>
      if ns.length < 2 then .nan
      else .sqrt (sampleVarianceNum ns) (ns.length * (ns.length - 1))
  gtOne := fun x => match x with
    | .nan => false
    | .int n => decide (1 < n)
    | .sqrt num den => decide ((den : Int) < num)

/-! ## The identifier pattern -/

/-- One element of a regular expression over characters: a single character of a class, or a
greedy repetition `x*` / `x+` of a class. -/
inductive Atom
  | one (p : Char → Bool)
  | star (p : Char → Bool)
  | plus (p : Char → Bool)

/-- An atom together with the capture group that encloses it (`0`: none). -/
structure Piece where
  atom : Atom
  group : Nat

/-- Greedy repetition: take characters of the class as long as possible, and give one back at
a time while the rest of the expression `k` fails. Returns the characters taken and the
result of `k`. -/
def starLoop {R : Type} (p : Char → Bool) (k : List Char → Option R) :
    List Char → Option (List Char × R)
  | [] => (k []).map (fun r => ([], r))
  | x :: s =>
    if p x then
      match starLoop p k s with
      | some (c, r) => some (x :: c, r)
      | none => (k (x :: s)).map (fun r => ([], r))
    else (k (x :: s)).map (fun r => ([], r))

/-- Backtracking match of a sequence of pieces at the start of the input, with the preferences
of Go's `regexp` (the first match a backtracking search finds). Returns the characters
consumed by each piece. -/
def matchHere : List Piece → List Char → Option (List (List Char))
  | [], _ => some []
  | ⟨.one p, _⟩ :: re, s =>
    match s with
    | [] => none
    | x :: s => if p x then (matchHere re s).map (fun cs => [x] :: cs) else none
  | ⟨.star p, _⟩ :: re, s =>
    (starLoop p (matchHere re) s).map (fun r => r.1 :: r.2)
  | ⟨.plus p, _⟩ :: re, s =>
    match s with
    | [] => none
    | x :: s =>
      if p x then (starLoop p (matchHere re) s).map (fun r => (x :: r.1) :: r.2) else none

/-- Leftmost match: the expression is tried at each position of the input in turn. -/
def findMatch (re : List Piece) : List Char → Option (List (List Char))
  | [] => matchHere re []
  | x :: s =>
    match matchHere re (x :: s) with
    | some cs => some cs
    | none => findMatch re s

/-- The text captured by group `g`: what the pieces of that group consumed. -/
def groupText (g : Nat) : List Piece → List (List Char) → List Char
  | p :: re, c :: cs => (if p.group = g then c else []) ++ groupText g re cs
  | _, _ => []

/-- The call `re.FindStringSubmatch(s)` for an expression with `groups` capture groups: nil
when there is no match, else the whole match followed by the text of each group. -/
def findStringSubmatch (re : List Piece) (groups : Nat) (s : String) : List String :=
  match findMatch re s.data with
  | none => []
  | some cs =>
    String.mk cs.flatten :: (List.range groups).map (fun g => String.mk (groupText (g + 1) re cs))

/-- A literal string outside any capture group. -/
def lits (s : String) : List Piece :=
  s.data.map (fun c => ⟨.one (fun x => x == c), 0⟩)

/-- The class `[a-z]`. -/
def isLower (c : Char) : Bool := decide ('a' ≤ c) && decide (c ≤ 'z')

/-- The class `\d`. -/
def isDigit (c : Char) : Bool := decide ('0' ≤ c) && decide (c ≤ '9')

/-- The class `.`: any character but the newline. -/
def isDot (c : Char) : Bool := !(c == '\n')

/-- The expression `Tests \/ ([a-z]*) - (\d+.\d+.\d+) - test \/ (.*)`. -/
def reTestName : List Piece :=
  lits "Tests / " ++ [⟨.star isLower, 1⟩] ++ lits " - " ++
  [⟨.plus isDigit, 2⟩, ⟨.one isDot, 2⟩, ⟨.plus isDigit, 2⟩, ⟨.one isDot, 2⟩, ⟨.plus isDigit, 2⟩] ++
  lits " - test / " ++ [⟨.star isDot, 3⟩]

/-- The three fields read off a raw identifier. -/
structure Parsed where
  platform : String
  version : String
  name : String
  deriving DecidableEq

/-- The lines `res := reTestName.FindStringSubmatch(test.Name); platform := res[1];
version := res[2]; name := res[3]`. The result is `none` when an index is out of range, where
the Go runtime panics. -/
def parseTestName (raw : String) : Option Parsed :=
  let res := findStringSubmatch reTestName 3 raw
  match res[1]?, res[2]?, res[3]? with
  | some platform, some version, some name => some ⟨platform, version, name⟩
  | _, _, _ => none

/-! ## Data model -/

/-- One entry of a cached run: `JenkinsTestResult`. -/
structure JenkinsTestResult where
  Name : String
  deriving DecidableEq

/-- Information about one test over the analysed runs: `TestStats`. -/
structure TestStats (F : Type) where
  Run : List Int
  Name : String
  FailedOn : GoMap String Int
  Count : Int
  StdDev : F
  deriving DecidableEq

/-- The zero value of `TestStats`, which a map read yields for an absent key. -/
def TestStats.zero {F : Type} (fo : FloatOps F) : TestStats F :=
  { Run := [], Name := "", FailedOn := [], Count := 0, StdDev := fo.zero }

/-- What opening and decoding `run-<n>.json` leaves behind: the contents of `jenkinsTestList`
after `dec.Decode`, and whether `Decode` reported an error. -/
structure RunFile where
  decoded : List JenkinsTestResult
  decodeErr : Bool

/-- The cache directory of one project and branch: for each run number, `none` when
`os.Open` fails, else the file. -/
abbrev Cache := Int → Option RunFile

/-- The ways `analyze` can end without a result. -/
inductive Failure
  /-- The error returned when `os.Open` fails for a run. -/
  | openError (run : Int)
  /-- The runtime panic at `res[1]` for an identifier that does not match. -/
  | indexOutOfRange (run : Int) (raw : String)
  deriving DecidableEq

/-- The choices left open by the Go runtime during one call of `analyze`. -/
structure Schedule (F : Type) where
  /-- Order of `for _, v := range results`. -/
  results : RangeOrder (String × TestStats F)
  /-- Order of `for k := range set` inside `unique`, for the record of each test. -/
  set : String → RangeOrder (Int × Unit)
  /-- Placement by `sort.Slice` of elements that compare equal. -/
  sort : RangeOrder (TestStats F)

/-! ## filter -/

/-- The function `filter`: for each record, for each predicate, the record is appended when
the predicate holds. -/
def filter {F : Type} (teststats : List (TestStats F)) (filterFuncs : List (TestStats F → Bool)) :
    List (TestStats F) :=
  teststats.foldl
    (fun tmp t => filterFuncs.foldl (fun tmp f => if f t = true then tmp ++ [t] else tmp) tmp)
    []

/-! ## analyze -/

/-- The body of the inner loop of `analyze` after parsing: update the record of `name`. -/
def recordFailure {F : Type} (fo : FloatOps F) (run : Int) (results : GoMap String (TestStats F))
    (p : Parsed) : GoMap String (TestStats F) :=
  let result := GoMap.get results p.name (TestStats.zero fo)
  let platform_version := p.platform ++ " " ++ p.version
  let result : TestStats F :=
    { result with
      Name := p.name
      Count := result.Count + 1
      FailedOn :=
        GoMap.store result.FailedOn platform_version (GoMap.get result.FailedOn platform_version 0 + 1)
      Run := result.Run ++ [run] }
  GoMap.store results p.name result

/-- The inner loop `for _, test := range jenkinsTestList`. -/
def scanTests {F : Type} (fo : FloatOps F) (run : Int) :
    List JenkinsTestResult → GoMap String (TestStats F) → Except Failure (GoMap String (TestStats F))
  | [], results => .ok results
  | test :: rest, results =>
    match parseTestName test.Name with
    | none => .error (.indexOutOfRange run test.Name)
    | some p => scanTests fo run rest (recordFailure fo run results p)

/-- The outer loop `for run := start; run <= end; run++` over the given values of `run`. The
error of `dec.Decode` is not looked at. -/
def scanRuns {F : Type} (fo : FloatOps F) (cache : Cache) :
    List Int → GoMap String (TestStats F) → Except Failure (GoMap String (TestStats F))
  | [], results => .ok results
  | run :: rest, results =>
    match cache run with
    | none => .error (.openError run)
    | some f =>
      match scanTests fo run f.decoded results with
      | .error e => .error e
      | .ok results => scanRuns fo cache rest results

/-- The function `unique`: the keys of the set built from `arr`, in map iteration order. -/
def unique (ord : RangeOrder (Int × Unit)) (arr : List Int) : List Int :=
  let set : GoMap Int Unit := arr.foldl (fun set v => GoMap.store set v ()) []
  (ord.order set).map (fun kv => kv.1)

/-- The body of `for _, v := range results`: deduplicate the runs and store the standard
deviation unless it is NaN. -/
def score {F : Type} (fo : FloatOps F) (ord : RangeOrder (Int × Unit)) (v : TestStats F) :
    TestStats F :=
  let v : TestStats F := { v with Run := unique ord v.Run }
  let in_ := v.Run.map fo.ofInt
  let sd := fo.stdDev in_
  if !fo.isNaN sd then { v with StdDev := sd } else v

/-- The function `analyze` for one project and branch. -/
def analyze {F : Type} (fo : FloatOps F) (sch : Schedule F) (cache : Cache) (start end_ : Int) :
    Except Failure (List (TestStats F)) :=
  match scanRuns fo cache (forRange start end_) [] with
  | .error e => .error e
  | .ok results =>
    let stats := (sch.results.order results).map (fun kv => score fo (sch.set kv.1) kv.2)
    let stats := sortSlice sch.sort (fun a b => strLess a.Name b.Name) stats
    let stats := sortSliceStable (fun a b => decide (a.Count > b.Count)) stats
    .ok stats

/-! ## render -/

/-- One line of the matrix: `Row`. -/
structure Row where
  Name : String
  Values : List Bool
  deriving DecidableEq

/-- The value handed to the template: `TemplateData`. -/
structure TemplateData where
  Title : String
  Headers : List Int
  Rows : List Row
  deriving DecidableEq

/-- The function `render` up to the call `t.Execute(out, d)`: the value `d` it builds. -/
def render {F : Type} (stats : List (TestStats F)) (project branch : String) (start end_ : Int) :
    TemplateData :=
  let testRuns := forRange start end_
  let rows := stats.map (fun v =>
    let set : GoMap Int Unit := v.Run.foldl (fun set v => GoMap.store set v ()) []
    let values := testRuns.map (fun run => (GoMap.find? set run).isSome)
    ({ Name := v.Name, Values := values } : Row))
  { Title := project ++ " - " ++ branch, Headers := testRuns, Rows := rows }

/-! ## Vocabulary of the statements -/

/-- The raw identifiers cached for a run, in file order (none when the file cannot be
opened). -/
def rawFailures (cache : Cache) (run : Int) : List String :=
  match cache run with
  | none => []
  | some f => f.decoded.map (fun t => t.Name)

/-- The test name that an identifier parses to, if it parses. -/
def parsedName (raw : String) : Option String :=
  (parseTestName raw).map (fun p => p.name)

/-- Every run of `[start, end]` has a file that opens, and every identifier in it matches the
pattern. -/
def WellFormed (cache : Cache) (start end_ : Int) : Prop :=
  ∀ run, start ≤ run → run ≤ end_ →
    ∃ f, cache run = some f ∧ ∀ t ∈ f.decoded, (parseTestName t.Name).isSome = true

/-- A test on parsed identifiers applied to a raw identifier: false when it does not parse. -/
def onParsed (q : Parsed → Bool) (raw : String) : Bool :=
  match parseTestName raw with
  | some p => q p
  | none => false

/-- The key of `FailedOn` for a parsed identifier: `fmt.Sprintf("%s %s", platform, version)`. -/
def platformVersion (p : Parsed) : String := p.platform ++ " " ++ p.version

/-- The parsed failures of the given runs, each with its run number, in the order in which
`analyze` meets them. -/
def occurrences (cache : Cache) (runs : List Int) : List (Int × Parsed) :=
  runs.flatMap (fun run =>
    (rawFailures cache run).filterMap (fun raw => (parseTestName raw).map (fun p => (run, p))))

/-- Folding a sequence of parsed failures into the map of records. -/
def aggregate {F : Type} (fo : FloatOps F) (occ : List (Int × Parsed))
    (results : GoMap String (TestStats F)) : GoMap String (TestStats F) :=
  occ.foldl (fun m o => recordFailure fo o.1 m o.2) results

/-- What the record of test `k` holds once the failures `occ` have been folded in. -/
structure RecordOf {F : Type} (fo : FloatOps F) (occ : List (Int × Parsed)) (k : String)
    (r : TestStats F) : Prop where
  run : r.Run = (occ.filter (fun o => decide (o.2.name = k))).map Prod.fst
  count : r.Count = ((occ.countP (fun o => decide (o.2.name = k)) : Nat) : Int)
  keys : (r.FailedOn.map Prod.fst).Nodup
  failedOn : ∀ key, GoMap.get r.FailedOn key 0 =
    ((occ.countP (fun o => decide (o.2.name = k) && decide (platformVersion o.2 = key)) : Nat) : Int)
  total : (r.FailedOn.map Prod.snd).sum = r.Count
  stdDev : r.StdDev = fo.zero

/-- The map of records after the failures `occ`: one entry per test name met, holding the
record of that test. -/
def AggInv {F : Type} (fo : FloatOps F) (occ : List (Int × Parsed))
    (m : GoMap String (TestStats F)) : Prop :=
  (m.map Prod.fst).Nodup ∧
  ∀ k, match GoMap.find? m k with
    | none => ∀ o ∈ occ, o.2.name ≠ k
    | some r => r.Name = k ∧ (∃ o ∈ occ, o.2.name = k) ∧ RecordOf fo occ k r

/-- The list `analyze` returns on well-formed input, before the two sorts. -/
def scored {F : Type} (fo : FloatOps F) (sch : Schedule F) (cache : Cache) (start end_ : Int) :
    List (TestStats F) :=
  (sch.results.order (aggregate fo (occurrences cache (forRange start end_)) [])).map
    (fun kv => score fo (sch.set kv.1) kv.2)

/-- A cache of three runs: `foo` fails in run 1, `foo` fails twice (on two platforms) and
`bar` once in run 2, nothing fails in run 3. -/
def demoCache : Cache := fun run =>
  if run = 1 then some ⟨[⟨"Tests / linux - 1.2.3 - test / foo"⟩], false⟩
  else if run = 2 then
    some ⟨[⟨"Tests / linux - 1.2.3 - test / foo"⟩, ⟨"Tests / osx - 1.2.3 - test / foo"⟩,
      ⟨"Tests / osx - 1.2.3 - test / bar"⟩], false⟩
  else if run = 3 then some ⟨[], false⟩
  else none

/-- A schedule in which the map of records is visited in insertion order and the sets of runs
in reverse insertion order. -/
def demoSchedule : Schedule XFloat :=
  { results := RangeOrder.insertion _
    set := fun _ => RangeOrder.reversed _
    sort := RangeOrder.reversed _ }

/-- What `analyze` returns for `demoCache` over the runs 1 to 3 under `demoSchedule`. -/
def demoStats : List (TestStats XFloat) :=
  [{ Run := [2, 1], Name := "foo", FailedOn := [("linux 1.2.3", 2), ("osx 1.2.3", 1)],
     Count := 3, StdDev := .sqrt 1 2 },
   { Run := [2], Name := "bar", FailedOn := [("osx 1.2.3", 1)], Count := 1, StdDev := .int 0 }]

/-- A cache of one run in which `foo` and `bar` fail once each. -/
def tieCache : Cache := fun run =>
  if run = 1 then
    some ⟨[⟨"Tests / linux - 1.2.3 - test / foo"⟩, ⟨"Tests / linux - 1.2.3 - test / bar"⟩], false⟩
  else none

/-- What `analyze` returns for `tieCache` over run 1 under `demoSchedule`. -/
def tieStats : List (TestStats XFloat) :=
  [{ Run := [1], Name := "bar", FailedOn := [("linux 1.2.3", 1)], Count := 1, StdDev := .int 0 },
   { Run := [1], Name := "foo", FailedOn := [("linux 1.2.3", 1)], Count := 1, StdDev := .int 0 }]

/-- A record of a test that failed in runs 1 and 9. -/
def demoRecord : TestStats XFloat :=
  { Run := [1, 9], Name := "foo", FailedOn := [("linux 1.2.3", 2)], Count := 2,
    StdDev := .sqrt 64 2 }

/-- The predicate of `main`: `ts.StdDev > 1`. -/
def spreadOut {F : Type} (fo : FloatOps F) : TestStats F → Bool :=
  fun ts => fo.gtOne ts.StdDev

/-- A second predicate: `ts.Count > 5`. -/
def frequent {F : Type} : TestStats F → Bool :=
  fun ts => decide (ts.Count > 5)

/-- A third predicate: `ts.Count > 1`. -/
def recurring {F : Type} : TestStats F → Bool :=
  fun ts => decide (ts.Count > 1)

/-- The strings a piece of a regular expression can consume. -/
def Atom.Accepts : Atom → List Char → Prop
  | .one p, c => ∃ x, c = [x] ∧ p x = true
  | .star p, c => ∀ x ∈ c, p x = true
  | .plus p, c => c ≠ [] ∧ ∀ x ∈ c, p x = true

/-- A cache whose only run holds an identifier that does not match the pattern (the platform
starts with a capital letter). -/
def badCache : Cache := fun run =>
  if run = 1 then some ⟨[⟨"Tests / Linux - 1.2.3 - test / foo"⟩], false⟩
  else none

/-- A cache of two runs: `foo` fails in run 1; the file of run 2 opens but is not JSON, so
that `dec.Decode` reports an error and leaves `jenkinsTestList` empty. -/
def corruptCache : Cache := fun run =>
  if run = 1 then some ⟨[⟨"Tests / linux - 1.2.3 - test / foo"⟩], false⟩
  else if run = 2 then some ⟨[], true⟩
  else none

/-- The ways `main` exits with status 1 before any work is done. -/
inductive Exit
  /-- After printing `No project set`. -/
  | noProject
  /-- After printing `No branch set`. -/
  | noBranch
  /-- After printing `start or end must not be 0`. -/
  | zeroRange
  /-- After printing `end %d is less than start %d`. -/
  | endBeforeStart
  deriving DecidableEq

/-- The checks of `main` on its flags, up to the call of `fetch`: `some e` when the process
exits with status 1, `none` when `main` goes on to `fetch` and `analyze`. -/
def checkFlags (project branch : String) (start end_ : Int) : Option Exit :=
  if project.length = 0 then some .noProject
  else if branch.length = 0 then some .noBranch
  else if end_ = 0 ∨ start = 0 then some .zeroRange
  else if end_ < start then some .endBeforeStart
  else none

/-- The call of `filter` in `main`, with the single predicate `ts.StdDev > 1`. -/
def mainFilter {F : Type} (fo : FloatOps F) (stats : List (TestStats F)) : List (TestStats F) :=
  filter stats [fun ts => fo.gtOne ts.StdDev]

/-- The three runs of the end-to-end scenario: `foo` fails in run 1, `foo` and `bar` fail in
run 2, nothing fails in run 3. -/
def scenarioCache : Cache := fun run =>
  if run = 1 then some ⟨[⟨"Tests / linux - 1.2.3 - test / foo"⟩], false⟩
  else if run = 2 then
    some ⟨[⟨"Tests / linux - 1.2.3 - test / foo"⟩, ⟨"Tests / osx - 1.2.3 - test / bar"⟩], false⟩
  else if run = 3 then some ⟨[], false⟩
  else none

/-- What `analyze` returns for the end-to-end scenario under `demoSchedule`. -/
def scenarioStats : List (TestStats XFloat) :=
  [{ Run := [2, 1], Name := "foo", FailedOn := [("linux 1.2.3", 2)], Count := 2,
     StdDev := .sqrt 1 2 },
   { Run := [2], Name := "bar", FailedOn := [("osx 1.2.3", 1)], Count := 1, StdDev := .int 0 }]

/-- The mean of integer samples. -/
def mean (xs : List Int) : ℚ :=
  (xs.map (fun (x : Int) => (x : ℚ))).sum / (xs.length : ℚ)

/-- The uncorrected (population) variance `Σ (x - mean)² / n`. -/
def populationVariance (xs : List Int) : ℚ :=
  (xs.map (fun (x : Int) => ((x : ℚ) - mean xs) ^ 2)).sum / (xs.length : ℚ)

/-- The corrected (sample) variance `Σ (x - mean)² / (n - 1)`. -/
def sampleVariance (xs : List Int) : ℚ :=
  (xs.map (fun (x : Int) => ((x : ℚ) - mean xs) ^ 2)).sum / ((xs.length : ℚ) - 1)

/-- The identifier of a failing test as Jenkins names it:
`Tests / <platform> - <version> - test / <name>`. -/
def formatTestName (platform version name : String) : String :=
  "Tests / " ++ platform ++ " - " ++ version ++ " - test / " ++ name

/-- A dotted numeric triple: digits, `.`, digits, `.`, digits. -/
def DottedTriple (v : String) : Prop :=
  ∃ d1 d2 d3 : List Char, v.data = d1 ++ '.' :: (d2 ++ '.' :: d3) ∧
    d1 ≠ [] ∧ d2 ≠ [] ∧ d3 ≠ [] ∧
    (∀ x ∈ d1, isDigit x = true) ∧ (∀ x ∈ d2, isDigit x = true) ∧ (∀ x ∈ d3, isDigit x = true)

/-! ## Go maps -/

theorem GoMap.find?_store {κ ν : Type} [DecidableEq κ] (m : GoMap κ ν) (k : κ) (v : ν) (k' : κ) :
    GoMap.find? (GoMap.store m k v) k' = if k = k' then some v else GoMap.find? m k' := by
  induction m with
  | nil => simp [GoMap.store, GoMap.find?]
  | cons e m ih =>
    obtain ⟨a, b⟩ := e
    by_cases h : a = k
    · subst h
      by_cases h' : a = k' <;> simp [GoMap.store, GoMap.find?, h']
    · by_cases h' : a = k'
      · subst h'
        have : ¬ k = a := fun e => h e.symm
        simp [GoMap.store, GoMap.find?, h, this]
      · simp [GoMap.store, GoMap.find?, h, h', ih]

theorem GoMap.keys_store {κ ν : Type} [DecidableEq κ] (m : GoMap κ ν) (k : κ) (v : ν) :
    (GoMap.store m k v).map Prod.fst =
      if k ∈ m.map Prod.fst then m.map Prod.fst else m.map Prod.fst ++ [k] := by
  induction m with
  | nil => simp [GoMap.store]
  | cons e m ih =>
    obtain ⟨a, b⟩ := e
    by_cases h : a = k
    · subst h
      simp [GoMap.store]
    · have h2 : ¬ k = a := fun e => h e.symm
      by_cases hk : k ∈ m.map Prod.fst
      · simp only [GoMap.store, h, if_false, List.map_cons, ih, hk, if_true, List.mem_cons, or_true]
      · simp only [GoMap.store, h, if_false, List.map_cons, ih, hk, List.mem_cons, h2, or_self,
          List.cons_append]

theorem GoMap.nodup_store {κ ν : Type} [DecidableEq κ] (m : GoMap κ ν) (k : κ) (v : ν)
    (h : (m.map Prod.fst).Nodup) : ((GoMap.store m k v).map Prod.fst).Nodup := by
  rw [GoMap.keys_store]
  by_cases hk : k ∈ m.map Prod.fst
  · simpa [hk] using h
  · simp only [hk, if_false]
    exact List.Nodup.append h (List.nodup_singleton k) (by
      intro a ha hb
      simp only [List.mem_singleton] at hb
      exact hk (hb ▸ ha))

theorem GoMap.mem_keys_store {κ ν : Type} [DecidableEq κ] (m : GoMap κ ν) (k : κ) (v : ν) (k' : κ) :
    k' ∈ (GoMap.store m k v).map Prod.fst ↔ k' = k ∨ k' ∈ m.map Prod.fst := by
  rw [GoMap.keys_store]
  by_cases hk : k ∈ m.map Prod.fst
  · simp only [hk, if_true]
    constructor
    · exact Or.inr
    · rintro (h | h)
      · exact h ▸ hk
      · exact h
  · simp only [hk, if_false, List.mem_append, List.mem_singleton]
    tauto

theorem GoMap.find?_isSome {κ ν : Type} [DecidableEq κ] (m : GoMap κ ν) (k : κ) :
    (GoMap.find? m k).isSome = true ↔ k ∈ m.map Prod.fst := by
  induction m with
  | nil => simp [GoMap.find?]
  | cons e m ih =>
    obtain ⟨a, b⟩ := e
    by_cases h : a = k
    · simp [GoMap.find?, h]
    · have h2 : ¬ k = a := fun e => h e.symm
      simp [GoMap.find?, h, h2, ih]

theorem GoMap.find?_of_mem {κ ν : Type} [DecidableEq κ] (m : GoMap κ ν)
    (hnd : (m.map Prod.fst).Nodup) (k : κ) (v : ν) (h : (k, v) ∈ m) :
    GoMap.find? m k = some v := by
  induction m with
  | nil => simp at h
  | cons e m ih =>
    obtain ⟨a, b⟩ := e
    simp only [List.map_cons, List.nodup_cons] at hnd
    simp only [List.mem_cons, Prod.mk.injEq] at h
    rcases h with ⟨h1, h2⟩ | h
    · simp [GoMap.find?, h1, h2]
    · have hne : ¬ a = k := by
        intro e
        apply hnd.1
        rw [e]
        exact List.mem_map_of_mem Prod.fst h
      simp only [GoMap.find?, hne, if_false]
      exact ih hnd.2 h

theorem GoMap.mem_of_find? {κ ν : Type} [DecidableEq κ] (m : GoMap κ ν) (k : κ) (v : ν)
    (h : GoMap.find? m k = some v) : (k, v) ∈ m := by
  induction m with
  | nil => simp [GoMap.find?] at h
  | cons e m ih =>
    obtain ⟨a, b⟩ := e
    by_cases hak : a = k
    · simp only [GoMap.find?, hak, if_true, Option.some.injEq] at h
      simp [hak, h]
    · simp only [GoMap.find?, hak, if_false] at h
      exact List.mem_cons_of_mem _ (ih h)

theorem GoMap.sum_store (m : GoMap String Int) (k : String) (v : Int) :
    ((GoMap.store m k v).map Prod.snd).sum = (m.map Prod.snd).sum - GoMap.get m k 0 + v := by
  induction m with
  | nil => simp [GoMap.store, GoMap.get, GoMap.find?]
  | cons e m ih =>
    obtain ⟨a, b⟩ := e
    by_cases h : a = k
    · simp only [GoMap.store, h, if_true, List.map_cons, List.sum_cons, GoMap.get, GoMap.find?,
        Option.getD_some]
      ring
    · simp only [GoMap.store, h, if_false, List.map_cons, List.sum_cons, ih, GoMap.get,
        GoMap.find?]
      ring

/-! ## Integer ranges -/

theorem mem_countFrom (n : Nat) (i x : Int) : x ∈ countFrom n i ↔ i ≤ x ∧ x < i + n := by
  induction n generalizing i with
  | zero => simp [countFrom]
  | succ n ih =>
    simp only [countFrom, List.mem_cons, ih, Nat.cast_succ]
    omega

theorem nodup_countFrom (n : Nat) (i : Int) : (countFrom n i).Nodup := by
  induction n generalizing i with
  | zero => simp [countFrom]
  | succ n ih =>
    simp only [countFrom, List.nodup_cons, mem_countFrom]
    exact ⟨by omega, ih _⟩

theorem countFrom_eq_map (n : Nat) (i : Int) :
    countFrom n i = (List.range n).map (fun (k : Nat) => i + (k : Int)) := by
  induction n generalizing i with
  | zero => simp [countFrom]
  | succ n ih =>
    rw [countFrom, ih, List.range_succ_eq_map]
    simp only [List.map_cons, List.map_map, Nat.cast_zero, add_zero, List.cons.injEq, true_and]
    apply List.map_congr_left
    intro k _
    simp only [Function.comp, Nat.cast_succ]
    ring

theorem mem_forRange (start end_ x : Int) : x ∈ forRange start end_ ↔ start ≤ x ∧ x ≤ end_ := by
  unfold forRange
  rw [mem_countFrom]
  omega

theorem nodup_forRange (start end_ : Int) : (forRange start end_).Nodup :=
  nodup_countFrom _ _

theorem forRange_toFinset (start end_ : Int) :
    (forRange start end_).toFinset = Finset.Icc start end_ := by
  ext x
  simp [mem_forRange]

theorem sum_forRange {M : Type} [AddCommMonoid M] (start end_ : Int) (f : Int → M) :
    ((forRange start end_).map f).sum = (Finset.Icc start end_).sum f := by
  rw [← forRange_toFinset, List.sum_toFinset f (nodup_forRange start end_)]

/-! ## unique -/

theorem keys_foldl_store (arr : List Int) (m : GoMap Int Unit) :
    ((m.map Prod.fst).Nodup →
      ((arr.foldl (fun set v => GoMap.store set v ()) m).map Prod.fst).Nodup) ∧
    ∀ x, x ∈ (arr.foldl (fun set v => GoMap.store set v ()) m).map Prod.fst ↔
      x ∈ arr ∨ x ∈ m.map Prod.fst := by
  induction arr generalizing m with
  | nil => simp
  | cons a arr ih =>
    refine ⟨?_, ?_⟩
    · intro h
      exact (ih (GoMap.store m a ())).1 (GoMap.nodup_store m a () h)
    · intro x
      simp only [List.foldl_cons, (ih (GoMap.store m a ())).2 x, GoMap.mem_keys_store,
        List.mem_cons]
      tauto

theorem nodup_unique (ord : RangeOrder (Int × Unit)) (arr : List Int) :
    (unique ord arr).Nodup := by
  unfold unique
  have h := (keys_foldl_store arr []).1 (by simp)
  exact ((ord.perm _).map Prod.fst).nodup_iff.mpr h

theorem mem_unique (ord : RangeOrder (Int × Unit)) (arr : List Int) (x : Int) :
    x ∈ unique ord arr ↔ x ∈ arr := by
  unfold unique
  have h := (keys_foldl_store arr []).2 x
  rw [((ord.perm _).map Prod.fst).mem_iff, h]
  simp

/-! ## The aggregation loop -/

theorem GoMap.get_store {κ ν : Type} [DecidableEq κ] (m : GoMap κ ν) (k : κ) (v : ν) (k' : κ)
    (z : ν) : GoMap.get (GoMap.store m k v) k' z = if k = k' then v else GoMap.get m k' z := by
  unfold GoMap.get
  rw [GoMap.find?_store]
  split <;> rfl

theorem recordOf_zero {F : Type} (fo : FloatOps F) (occ : List (Int × Parsed)) (k : String)
    (h : ∀ o ∈ occ, o.2.name ≠ k) : RecordOf fo occ k (TestStats.zero fo) := by
  have hf : occ.filter (fun o => decide (o.2.name = k)) = [] := by
    rw [List.filter_eq_nil_iff]
    intro o ho
    simpa using h o ho
  have hc : occ.countP (fun o => decide (o.2.name = k)) = 0 := by
    rw [List.countP_eq_length_filter, hf]
    rfl
  refine ⟨?_, ?_, ?_, ?_, ?_, rfl⟩
  · simp [TestStats.zero, hf]
  · simp [TestStats.zero, hc]
  · simp [TestStats.zero]
  · intro key
    have : occ.countP
        (fun o => decide (o.2.name = k) && decide (platformVersion o.2 = key)) = 0 := by
      rw [List.countP_eq_zero]
      intro o ho
      simpa using fun e => absurd e (h o ho)
    simp [TestStats.zero, GoMap.get, GoMap.find?, this]
  · simp [TestStats.zero]

theorem recordOf_other {F : Type} (fo : FloatOps F) (occ : List (Int × Parsed)) (k : String)
    (r : TestStats F) (o : Int × Parsed) (hne : o.2.name ≠ k) (h : RecordOf fo occ k r) :
    RecordOf fo (occ ++ [o]) k r := by
  refine ⟨?_, ?_, h.keys, ?_, h.total, h.stdDev⟩
  · simp [List.filter_append, List.filter_cons, hne, h.run]
  · simp [List.countP_append, List.countP_cons, hne, h.count]
  · intro key
    simp [List.countP_append, List.countP_cons, hne, h.failedOn key]

theorem recordOf_step {F : Type} (fo : FloatOps F) (occ : List (Int × Parsed)) (run : Int)
    (p : Parsed) (r : TestStats F) (h : RecordOf fo occ p.name r) :
    RecordOf fo (occ ++ [(run, p)]) p.name
      { r with
        Name := p.name
        Count := r.Count + 1
        FailedOn := GoMap.store r.FailedOn (platformVersion p)
          (GoMap.get r.FailedOn (platformVersion p) 0 + 1)
        Run := r.Run ++ [run] } := by
  refine ⟨?_, ?_, ?_, ?_, ?_, h.stdDev⟩
  · simp [List.filter_append, List.filter_cons, h.run]
  · simp [List.countP_append, List.countP_cons, h.count]
  · exact GoMap.nodup_store _ _ _ h.keys
  · intro key
    simp only [GoMap.get_store, List.countP_append, List.countP_cons, List.countP_nil,
      decide_True, Bool.true_and, zero_add, Nat.cast_add, h.failedOn]
    by_cases hk : platformVersion p = key
    · subst hk
      simp
    · simp [hk, h.failedOn key]
  · simp only [GoMap.sum_store, h.total]
    ring

theorem aggInv_nil {F : Type} (fo : FloatOps F) : AggInv fo [] ([] : GoMap String (TestStats F)) := by
  refine ⟨by simp, ?_⟩
  intro k
  simp [GoMap.find?]

theorem aggInv_step {F : Type} (fo : FloatOps F) (occ : List (Int × Parsed))
    (m : GoMap String (TestStats F)) (run : Int) (p : Parsed) (h : AggInv fo occ m) :
    AggInv fo (occ ++ [(run, p)]) (recordFailure fo run m p) := by
  obtain ⟨hnd, hrec⟩ := h
  refine ⟨GoMap.nodup_store _ _ _ hnd, ?_⟩
  intro k
  unfold recordFailure
  simp only [GoMap.find?_store]
  by_cases hk : p.name = k
  · subst hk
    simp only [if_true]
    refine ⟨trivial, ⟨(run, p), by simp, rfl⟩, ?_⟩
    have hbase : RecordOf fo occ p.name (GoMap.get m p.name (TestStats.zero fo)) := by
      have h1 := hrec p.name
      unfold GoMap.get
      cases hfind : GoMap.find? m p.name with
      | none =>
        rw [hfind] at h1
        exact recordOf_zero fo occ p.name h1
      | some r =>
        rw [hfind] at h1
        exact h1.2.2
    exact recordOf_step fo occ run p _ hbase
  · simp only [hk, if_false]
    have h1 := hrec k
    cases hfind : GoMap.find? m k with
    | none =>
      rw [hfind] at h1
      intro o ho
      simp only [List.mem_append, List.mem_singleton] at ho
      rcases ho with ho | ho
      · exact h1 o ho
      · rw [ho]
        exact hk
    | some r =>
      rw [hfind] at h1
      obtain ⟨hn, ⟨o, ho, hon⟩, hr⟩ := h1
      exact ⟨hn, ⟨o, by simp [ho], hon⟩, recordOf_other fo occ k r (run, p) hk hr⟩

theorem aggregate_append {F : Type} (fo : FloatOps F) (occ : List (Int × Parsed))
    (o : Int × Parsed) (m : GoMap String (TestStats F)) :
    aggregate fo (occ ++ [o]) m = recordFailure fo o.1 (aggregate fo occ m) o.2 := by
  simp [aggregate, List.foldl_append]

theorem aggInv_aggregate {F : Type} (fo : FloatOps F) (occ : List (Int × Parsed)) :
    AggInv fo occ (aggregate fo occ []) := by
  induction occ using List.reverseRecOn with
  | nil => exact aggInv_nil fo
  | append_singleton occ o ih =>
    rw [aggregate_append]
    exact aggInv_step fo occ _ o.1 o.2 ih

theorem aggregate_app {F : Type} (fo : FloatOps F) (a b : List (Int × Parsed))
    (m : GoMap String (TestStats F)) :
    aggregate fo (a ++ b) m = aggregate fo b (aggregate fo a m) := by
  simp [aggregate, List.foldl_append]

theorem scanTests_ok {F : Type} (fo : FloatOps F) (run : Int) (tests : List JenkinsTestResult)
    (m : GoMap String (TestStats F))
    (h : ∀ t ∈ tests, (parseTestName t.Name).isSome = true) :
    scanTests fo run tests m = .ok (aggregate fo
      ((tests.map (fun t => t.Name)).filterMap
        (fun raw => (parseTestName raw).map (fun p => (run, p)))) m) := by
  induction tests generalizing m with
  | nil => rfl
  | cons t rest ih =>
    have ht := h t (List.mem_cons_self _ _)
    obtain ⟨p, hp⟩ := Option.isSome_iff_exists.mp ht
    have hrest : ∀ t ∈ rest, (parseTestName t.Name).isSome = true :=
      fun t' ht' => h t' (List.mem_cons_of_mem _ ht')
    simp only [scanTests, hp, List.map_cons, List.filterMap_cons, Option.map_some', ih _ hrest]
    rfl

theorem scanTests_ok_inv {F : Type} (fo : FloatOps F) (run : Int)
    (tests : List JenkinsTestResult) (m m' : GoMap String (TestStats F))
    (h : scanTests fo run tests m = .ok m') :
    ∀ t ∈ tests, (parseTestName t.Name).isSome = true := by
  induction tests generalizing m with
  | nil => simp
  | cons t rest ih =>
    cases hp : parseTestName t.Name with
    | none => simp [scanTests, hp] at h
    | some p =>
      simp only [scanTests, hp] at h
      intro t' ht'
      simp only [List.mem_cons] at ht'
      rcases ht' with e | ht'
      · rw [e, hp]
        rfl
      · exact ih _ h t' ht'

theorem occurrences_cons (cache : Cache) (run : Int) (rest : List Int) :
    occurrences cache (run :: rest) =
      (rawFailures cache run).filterMap (fun raw => (parseTestName raw).map (fun p => (run, p)))
        ++ occurrences cache rest := by
  simp [occurrences]

theorem scanRuns_ok {F : Type} (fo : FloatOps F) (cache : Cache) (runs : List Int)
    (m : GoMap String (TestStats F))
    (h : ∀ run ∈ runs, ∃ f, cache run = some f ∧
      ∀ t ∈ f.decoded, (parseTestName t.Name).isSome = true) :
    scanRuns fo cache runs m = .ok (aggregate fo (occurrences cache runs) m) := by
  induction runs generalizing m with
  | nil => rfl
  | cons run rest ih =>
    obtain ⟨f, hf, hparse⟩ := h run (List.mem_cons_self _ _)
    have hrest : ∀ run ∈ rest, ∃ f, cache run = some f ∧
        ∀ t ∈ f.decoded, (parseTestName t.Name).isSome = true :=
      fun r hr => h r (List.mem_cons_of_mem _ hr)
    rw [occurrences_cons, aggregate_app]
    simp only [scanRuns, hf, scanTests_ok fo run f.decoded m hparse, ih _ hrest, rawFailures]

theorem scanRuns_ok_inv {F : Type} (fo : FloatOps F) (cache : Cache) (runs : List Int)
    (m m' : GoMap String (TestStats F)) (h : scanRuns fo cache runs m = .ok m') :
    ∀ run ∈ runs, ∃ f, cache run = some f ∧
      ∀ t ∈ f.decoded, (parseTestName t.Name).isSome = true := by
  induction runs generalizing m with
  | nil => simp
  | cons run rest ih =>
    cases hf : cache run with
    | none => simp [scanRuns, hf] at h
    | some f =>
      cases hs : scanTests fo run f.decoded m with
      | error e => simp [scanRuns, hf, hs] at h
      | ok m1 =>
        simp only [scanRuns, hf, hs] at h
        intro r hr
        simp only [List.mem_cons] at hr
        rcases hr with e | hr
        · rw [e]
          exact ⟨f, hf, scanTests_ok_inv fo run f.decoded m m1 hs⟩
        · exact ih _ h r hr

theorem wellFormed_iff_forRange (cache : Cache) (start end_ : Int) :
    WellFormed cache start end_ ↔
      ∀ run ∈ forRange start end_, ∃ f, cache run = some f ∧
        ∀ t ∈ f.decoded, (parseTestName t.Name).isSome = true := by
  unfold WellFormed
  constructor
  · intro h run hr
    rw [mem_forRange] at hr
    exact h run hr.1 hr.2
  · intro h run h1 h2
    exact h run ((mem_forRange _ _ _).mpr ⟨h1, h2⟩)

theorem analyze_ok {F : Type} (fo : FloatOps F) (sch : Schedule F) (cache : Cache)
    (start end_ : Int) (h : WellFormed cache start end_) :
    analyze fo sch cache start end_ = .ok
      (sortSliceStable (fun a b => decide (a.Count > b.Count))
        (sortSlice sch.sort (fun a b => strLess a.Name b.Name)
          (scored fo sch cache start end_))) := by
  unfold analyze
  rw [scanRuns_ok fo cache _ [] ((wellFormed_iff_forRange cache start end_).mp h)]
  rfl

theorem analyze_ok_iff {F : Type} (fo : FloatOps F) (sch : Schedule F) (cache : Cache)
    (start end_ : Int) :
    (∃ stats, analyze fo sch cache start end_ = .ok stats) ↔ WellFormed cache start end_ := by
  constructor
  · rintro ⟨stats, hs⟩
    rw [wellFormed_iff_forRange]
    unfold analyze at hs
    cases hr : scanRuns fo cache (forRange start end_) [] with
    | error e => simp [hr] at hs
    | ok m => exact scanRuns_ok_inv fo cache _ [] m hr
  · intro h
    exact ⟨_, analyze_ok fo sch cache start end_ h⟩

/-! ## The scoring loop -/

theorem score_Name {F : Type} (fo : FloatOps F) (ord : RangeOrder (Int × Unit)) (v : TestStats F) :
    (score fo ord v).Name = v.Name := by
  simp only [score]
  split <;> rfl

theorem score_Count {F : Type} (fo : FloatOps F) (ord : RangeOrder (Int × Unit))
    (v : TestStats F) : (score fo ord v).Count = v.Count := by
  simp only [score]
  split <;> rfl

theorem score_FailedOn {F : Type} (fo : FloatOps F) (ord : RangeOrder (Int × Unit))
    (v : TestStats F) : (score fo ord v).FailedOn = v.FailedOn := by
  simp only [score]
  split <;> rfl

theorem score_Run {F : Type} (fo : FloatOps F) (ord : RangeOrder (Int × Unit)) (v : TestStats F) :
    (score fo ord v).Run = unique ord v.Run := by
  simp only [score]
  split <;> rfl

theorem score_StdDev {F : Type} (fo : FloatOps F) (ord : RangeOrder (Int × Unit))
    (v : TestStats F) :
    (score fo ord v).StdDev =
      if fo.isNaN (fo.stdDev ((unique ord v.Run).map fo.ofInt)) = true then v.StdDev
      else fo.stdDev ((unique ord v.Run).map fo.ofInt) := by
  simp only [score]
  by_cases h : fo.isNaN (fo.stdDev ((unique ord v.Run).map fo.ofInt)) = true
  · simp [h]
  · simp [h]

theorem perm_sortSliceStable {α : Type} (less : α → α → Bool) (x : List α) :
    (sortSliceStable less x).Perm x :=
  List.perm_insertionSort _ x

theorem perm_sortSlice {α : Type} (ord : RangeOrder α) (less : α → α → Bool) (x : List α) :
    (sortSlice ord less x).Perm x :=
  (perm_sortSliceStable less _).trans (ord.perm x)

theorem analyze_perm {F : Type} (fo : FloatOps F) (sch : Schedule F) (cache : Cache)
    (start end_ : Int) (h : WellFormed cache start end_) :
    ∃ stats, analyze fo sch cache start end_ = .ok stats ∧
      stats.Perm (scored fo sch cache start end_) :=
  ⟨_, analyze_ok fo sch cache start end_ h,
    (perm_sortSliceStable _ _).trans (perm_sortSlice _ _ _)⟩

theorem scored_spec {F : Type} (fo : FloatOps F) (sch : Schedule F) (cache : Cache)
    (start end_ : Int) (r : TestStats F) (hr : r ∈ scored fo sch cache start end_) :
    ∃ v, r = score fo (sch.set r.Name) v ∧ v.Name = r.Name ∧
      (∃ o ∈ occurrences cache (forRange start end_), o.2.name = r.Name) ∧
      RecordOf fo (occurrences cache (forRange start end_)) r.Name v := by
  unfold scored at hr
  rw [List.mem_map] at hr
  obtain ⟨⟨k, v⟩, hkv, hscore⟩ := hr
  rw [(sch.results.perm _).mem_iff] at hkv
  obtain ⟨hnd, hrec⟩ := aggInv_aggregate fo (occurrences cache (forRange start end_))
  have hfind := GoMap.find?_of_mem _ hnd k v hkv
  have h1 := hrec k
  rw [hfind] at h1
  obtain ⟨hn, hex, hro⟩ := h1
  have hname : r.Name = k := by
    rw [← hscore]
    simp only [score_Name]
    exact hn
  subst hname
  exact ⟨v, hscore.symm, hn, hex, hro⟩

/-! ## Membership in the sequence of occurrences -/

theorem mem_occurrences (cache : Cache) (runs : List Int) (o : Int × Parsed) :
    o ∈ occurrences cache runs ↔
      o.1 ∈ runs ∧ ∃ raw ∈ rawFailures cache o.1, parseTestName raw = some o.2 := by
  obtain ⟨x, p⟩ := o
  simp only [occurrences, List.mem_flatMap, List.mem_filterMap, Option.map_eq_some',
    Prod.mk.injEq]
  constructor
  · rintro ⟨run, hrun, raw, hraw, q, hq, h1, h2⟩
    subst h1 h2
    exact ⟨hrun, raw, hraw, hq⟩
  · rintro ⟨hrun, raw, hraw, hq⟩
    exact ⟨x, hrun, raw, hraw, p, hq, rfl, rfl⟩


/-! ## Soundness of the matcher -/

theorem starLoop_sound {R : Type} (p : Char → Bool) (k : List Char → Option R) (s c : List Char)
    (r : R) (h : starLoop p k s = some (c, r)) :
    (∀ x ∈ c, p x = true) ∧ ∃ rest, s = c ++ rest ∧ k rest = some r := by
  induction s generalizing c r with
  | nil =>
    simp only [starLoop, Option.map_eq_some', Prod.mk.injEq] at h
    obtain ⟨a, ha, h1, h2⟩ := h
    subst h1 h2
    exact ⟨by simp, [], rfl, ha⟩
  | cons x s ih =>
    by_cases hp : p x = true
    · simp only [starLoop, hp, if_true] at h
      cases hs : starLoop p k s with
      | none =>
        simp only [hs, Option.map_eq_some', Prod.mk.injEq] at h
        obtain ⟨a, ha, h1, h2⟩ := h
        subst h1 h2
        exact ⟨by simp, x :: s, rfl, ha⟩
      | some cr =>
        obtain ⟨c0, r0⟩ := cr
        simp only [hs, Option.some.injEq, Prod.mk.injEq] at h
        obtain ⟨h1, h2⟩ := h
        subst h1 h2
        obtain ⟨hall, rest, hrest, hk⟩ := ih c0 r0 hs
        refine ⟨?_, rest, by simp [hrest], hk⟩
        intro y hy
        simp only [List.mem_cons] at hy
        rcases hy with e | hy
        · rw [e]
          exact hp
        · exact hall y hy
    · simp only [starLoop, hp, Bool.false_eq_true, if_false, Option.map_eq_some',
        Prod.mk.injEq] at h
      obtain ⟨a, ha, h1, h2⟩ := h
      subst h1 h2
      exact ⟨by simp, x :: s, rfl, ha⟩

theorem matchHere_sound (re : List Piece) (s : List Char) (cs : List (List Char))
    (h : matchHere re s = some cs) :
    List.Forall₂ (fun pc c => pc.atom.Accepts c) re cs ∧ ∃ rest, s = cs.flatten ++ rest := by
  induction re generalizing s cs with
  | nil =>
    simp only [matchHere, Option.some.injEq] at h
    subst h
    exact ⟨List.Forall₂.nil, s, rfl⟩
  | cons pc re ih =>
    obtain ⟨a, g⟩ := pc
    cases a with
    | one p =>
      cases s with
      | nil => simp [matchHere] at h
      | cons x s =>
        by_cases hp : p x = true
        · simp only [matchHere, hp, if_true, Option.map_eq_some'] at h
          obtain ⟨cs0, h0, h1⟩ := h
          subst h1
          obtain ⟨hf, rest, hrest⟩ := ih s cs0 h0
          exact ⟨List.Forall₂.cons ⟨x, rfl, hp⟩ hf, rest, by simp [hrest]⟩
        · simp [matchHere, hp] at h
    | star p =>
      simp only [matchHere, Option.map_eq_some'] at h
      obtain ⟨⟨c, cs0⟩, h0, h1⟩ := h
      subst h1
      obtain ⟨hall, rest, hrest, hk⟩ := starLoop_sound p _ s c cs0 h0
      obtain ⟨hf, rest2, hrest2⟩ := ih rest cs0 hk
      exact ⟨List.Forall₂.cons hall hf, rest2, by simp [hrest, hrest2]⟩
    | plus p =>
      cases s with
      | nil => simp [matchHere] at h
      | cons x s =>
        by_cases hp : p x = true
        · simp only [matchHere, hp, if_true, Option.map_eq_some'] at h
          obtain ⟨⟨c, cs0⟩, h0, h1⟩ := h
          subst h1
          obtain ⟨hall, rest, hrest, hk⟩ := starLoop_sound p _ s c cs0 h0
          obtain ⟨hf, rest2, hrest2⟩ := ih rest cs0 hk
          refine ⟨List.Forall₂.cons ⟨by simp, ?_⟩ hf, rest2, by simp [hrest, hrest2]⟩
          intro y hy
          simp only [List.mem_cons] at hy
          rcases hy with e | hy
          · rw [e]
            exact hp
          · exact hall y hy
        · simp [matchHere, hp] at h

theorem findMatch_sound (re : List Piece) (s : List Char) (cs : List (List Char))
    (h : findMatch re s = some cs) :
    List.Forall₂ (fun pc c => pc.atom.Accepts c) re cs ∧
      ∃ pre rest, s = pre ++ cs.flatten ++ rest := by
  induction s with
  | nil =>
    simp only [findMatch] at h
    obtain ⟨hf, rest, hrest⟩ := matchHere_sound re [] cs h
    exact ⟨hf, [], rest, by simpa using hrest⟩
  | cons x s ih =>
    cases hm : matchHere re (x :: s) with
    | some cs0 =>
      simp only [findMatch, hm, Option.some.injEq] at h
      subst h
      obtain ⟨hf, rest, hrest⟩ := matchHere_sound re (x :: s) cs0 hm
      exact ⟨hf, [], rest, by simpa using hrest⟩
    | none =>
      simp only [findMatch, hm] at h
      obtain ⟨hf, pre, rest, hrest⟩ := ih h
      exact ⟨hf, x :: pre, rest, by simp [hrest]⟩

theorem groupText_forall (g : Nat) (P : Char → Prop) (re : List Piece) (cs : List (List Char))
    (hf : List.Forall₂ (fun pc c => pc.atom.Accepts c) re cs)
    (hg : ∀ pc ∈ re, pc.group = g → ∀ c, pc.atom.Accepts c → ∀ x ∈ c, P x) :
    ∀ x ∈ groupText g re cs, P x := by
  induction hf with
  | nil => simp [groupText]
  | @cons pc c re cs hacc _ ih =>
    intro x hx
    simp only [groupText, List.mem_append] at hx
    rcases hx with hx | hx
    · by_cases hpg : pc.group = g
      · simp only [hpg, if_true] at hx
        exact hg pc (List.mem_cons_self _ _) hpg c hacc x hx
      · simp [hpg] at hx
    · exact ih (fun pc' hpc' => hg pc' (List.mem_cons_of_mem _ hpc')) x hx

theorem group_lits (s : String) : ∀ pc ∈ lits s, pc.group = 0 := by
  intro pc hpc
  simp only [lits, List.mem_map] at hpc
  obtain ⟨c, _, hc⟩ := hpc
  rw [← hc]

theorem parseTestName_eq (raw : String) (p : Parsed) (h : parseTestName raw = some p) :
    ∃ cs, findMatch reTestName raw.data = some cs ∧
      p.platform = String.mk (groupText 1 reTestName cs) ∧
      p.version = String.mk (groupText 2 reTestName cs) ∧
      p.name = String.mk (groupText 3 reTestName cs) := by
  unfold parseTestName findStringSubmatch at h
  cases hm : findMatch reTestName raw.data with
  | none => simp [hm] at h
  | some cs =>
    refine ⟨cs, rfl, ?_⟩
    simp only [hm] at h
    have hr : List.range 3 = [0, 1, 2] := rfl
    simp only [hr, List.map_cons, List.map_nil, List.getElem?_cons_succ, List.getElem?_cons_zero,
      Option.some.injEq] at h
    subst h
    exact ⟨rfl, rfl, rfl⟩

theorem parseTestName_platform (raw : String) (p : Parsed) (h : parseTestName raw = some p) :
    ∀ x ∈ p.platform.data, isLower x = true := by
  obtain ⟨cs, hm, hp, _, _⟩ := parseTestName_eq raw p h
  rw [hp]
  refine groupText_forall 1 (fun x => isLower x = true) reTestName cs
    (findMatch_sound _ _ _ hm).1 ?_
  intro pc hpc hg c hacc
  simp only [reTestName, List.mem_append, List.mem_cons, List.mem_singleton,
    List.not_mem_nil, or_false] at hpc
  rcases hpc with ((((hpc | hpc) | hpc) | hpc) | hpc) | hpc
  · have := group_lits _ pc hpc
    omega
  · subst hpc
    exact hacc
  · have := group_lits _ pc hpc
    omega
  · rcases hpc with hpc | hpc | hpc | hpc | hpc <;> subst hpc <;> simp at hg
  · have := group_lits _ pc hpc
    omega
  · subst hpc
    simp at hg

/-! ## Counting occurrences run by run -/

theorem countP_filterMap_parse (run : Int) (q : Parsed → Bool) (raws : List String) :
    (raws.filterMap (fun raw => (parseTestName raw).map (fun p => (run, p)))).countP
        (fun o => q o.2) = raws.countP (onParsed q) := by
  induction raws with
  | nil => rfl
  | cons raw rest ih =>
    cases hp : parseTestName raw with
    | none => simp [List.filterMap_cons, hp, List.countP_cons, ih, onParsed]
    | some p => simp [List.filterMap_cons, hp, List.countP_cons, ih, onParsed]

theorem countP_occurrences (cache : Cache) (runs : List Int) (q : Parsed → Bool) :
    (occurrences cache runs).countP (fun o => q o.2) =
      (runs.map (fun run => (rawFailures cache run).countP (onParsed q))).sum := by
  induction runs with
  | nil => rfl
  | cons run rest ih =>
    rw [occurrences_cons, List.countP_append, ih, countP_filterMap_parse]
    simp

theorem count_by_run (cache : Cache) (start end_ : Int) (q : Parsed → Bool) :
    (((occurrences cache (forRange start end_)).countP (fun o => q o.2) : Nat) : Int) =
      ∑ run in Finset.Icc start end_, (((rawFailures cache run).countP (onParsed q) : Nat) : Int) := by
  rw [countP_occurrences, sum_forRange, Nat.cast_sum]

theorem onParsed_name (k : String) (raw : String) :
    onParsed (fun p => decide (p.name = k)) raw = decide (parsedName raw = some k) := by
  unfold onParsed parsedName
  cases parseTestName raw <;> simp

/-! ## Keys of `FailedOn` -/

theorem append_space_inj (a b c d : List Char) (ha : ' ' ∉ a) (hc : ' ' ∉ c)
    (h : a ++ ' ' :: b = c ++ ' ' :: d) : a = c ∧ b = d := by
  induction a generalizing c with
  | nil =>
    cases c with
    | nil => simpa using h
    | cons y c =>
      simp only [List.nil_append, List.cons_append, List.cons.injEq] at h
      exact absurd (h.1 ▸ List.mem_cons_self _ _) hc
  | cons x a ih =>
    cases c with
    | nil =>
      simp only [List.nil_append, List.cons_append, List.cons.injEq] at h
      exact absurd (h.1 ▸ List.mem_cons_self _ _) ha
    | cons y c =>
      simp only [List.cons_append, List.cons.injEq] at h
      obtain ⟨h1, h2⟩ := h
      have := ih c (fun hm => ha (List.mem_cons_of_mem _ hm))
        (fun hm => hc (List.mem_cons_of_mem _ hm)) h2
      exact ⟨by rw [h1, this.1], this.2⟩

theorem platformVersion_inj (p q : Parsed)
    (hp : ∀ x ∈ p.platform.data, isLower x = true)
    (hq : ∀ x ∈ q.platform.data, isLower x = true)
    (h : platformVersion p = platformVersion q) :
    p.platform = q.platform ∧ p.version = q.version := by
  have hd := congrArg String.data h
  simp only [platformVersion, String.data_append] at hd
  simp only [List.append_assoc, List.singleton_append] at hd
  have h1 : ' ' ∉ p.platform.data := fun hm => by
    have := hp _ hm
    revert this
    decide
  have h2 : ' ' ∉ q.platform.data := fun hm => by
    have := hq _ hm
    revert this
    decide
  obtain ⟨e1, e2⟩ := append_space_inj _ _ _ _ h1 h2 hd
  exact ⟨String.ext e1, String.ext e2⟩

theorem onParsed_platformVersion (k : String) (p0 : Parsed)
    (hp0 : ∀ x ∈ p0.platform.data, isLower x = true) (raw : String) :
    onParsed (fun p => decide (p.name = k) && decide (platformVersion p = platformVersion p0)) raw
      = decide (parseTestName raw = some ⟨p0.platform, p0.version, k⟩) := by
  unfold onParsed
  cases hp : parseTestName raw with
  | none => simp
  | some p =>
    have hlow := parseTestName_platform raw p hp
    by_cases h : p = ⟨p0.platform, p0.version, k⟩
    · subst h
      simp [platformVersion]
    · have : ¬ (p.name = k ∧ platformVersion p = platformVersion p0) := by
        rintro ⟨hn, hpv⟩
        obtain ⟨e1, e2⟩ := platformVersion_inj p p0 hlow hp0 hpv
        apply h
        obtain ⟨a, b, c⟩ := p
        simp only at e1 e2 hn
        rw [e1, e2, hn]
      simp only [Option.some.injEq, h, decide_False]
      simpa using this

/-! ## Facts about each record of the scored list -/

theorem scored_count {F : Type} (fo : FloatOps F) (sch : Schedule F) (cache : Cache)
    (start end_ : Int) (r : TestStats F) (hr : r ∈ scored fo sch cache start end_) :
    r.Count = ∑ run in Finset.Icc start end_,
      (((rawFailures cache run).countP (fun raw => decide (parsedName raw = some r.Name)) : Nat)
        : Int) := by
  obtain ⟨v, hv, -, -, hrec⟩ := scored_spec fo sch cache start end_ r hr
  have hc : r.Count = v.Count := (congrArg TestStats.Count hv).trans (score_Count _ _ _)
  rw [hc, hrec.count, count_by_run cache start end_ (fun p => decide (p.name = r.Name))]
  apply Finset.sum_congr rfl
  intro run _
  congr 1
  apply List.countP_congr
  intro raw _
  rw [onParsed_name]

theorem scored_run {F : Type} (fo : FloatOps F) (sch : Schedule F) (cache : Cache)
    (start end_ : Int) (r : TestStats F) (hr : r ∈ scored fo sch cache start end_) :
    r.Run.Nodup ∧ ∀ run, run ∈ r.Run ↔
      (start ≤ run ∧ run ≤ end_ ∧
        ∃ raw ∈ rawFailures cache run, parsedName raw = some r.Name) := by
  obtain ⟨v, hv, -, -, hrec⟩ := scored_spec fo sch cache start end_ r hr
  have hrun : r.Run = unique (sch.set r.Name) v.Run :=
    (congrArg TestStats.Run hv).trans (score_Run _ _ _)
  refine ⟨hrun ▸ nodup_unique _ _, ?_⟩
  intro run
  rw [hrun, mem_unique, hrec.run]
  simp only [List.mem_map, List.mem_filter, decide_eq_true_eq, mem_occurrences, mem_forRange,
    parsedName, Option.map_eq_some']
  constructor
  · rintro ⟨⟨x, p⟩, ⟨⟨hx, raw, hraw, hp⟩, hn⟩, he⟩
    simp only at he hn hx hraw hp
    subst he
    exact ⟨hx.1, hx.2, raw, hraw, p, hp, hn⟩
  · rintro ⟨h1, h2, raw, hraw, p, hp, hn⟩
    exact ⟨(run, p), ⟨⟨⟨h1, h2⟩, raw, hraw, hp⟩, hn⟩, rfl⟩

theorem scored_length_le {F : Type} (fo : FloatOps F) (sch : Schedule F) (cache : Cache)
    (start end_ : Int) (r : TestStats F) (hr : r ∈ scored fo sch cache start end_) :
    (r.Run.length : Int) ≤ r.Count := by
  obtain ⟨v, hv, -, -, hrec⟩ := scored_spec fo sch cache start end_ r hr
  have hrun : r.Run = unique (sch.set r.Name) v.Run :=
    (congrArg TestStats.Run hv).trans (score_Run _ _ _)
  have hc : r.Count = v.Count := (congrArg TestStats.Count hv).trans (score_Count _ _ _)
  have hsub : unique (sch.set r.Name) v.Run ⊆ v.Run := fun x hx => (mem_unique _ _ x).mp hx
  have hle := (List.subperm_of_subset (nodup_unique (sch.set r.Name) v.Run) hsub).length_le
  have hlen : v.Run.length = (occurrences cache (forRange start end_)).countP
      (fun o => decide (o.2.name = r.Name)) := by
    rw [hrec.run, List.length_map, List.countP_eq_length_filter]
  rw [hrun, hc, hrec.count, ← hlen]
  exact_mod_cast hle

theorem scored_failedOn {F : Type} (fo : FloatOps F) (sch : Schedule F) (cache : Cache)
    (start end_ : Int) (r : TestStats F) (hr : r ∈ scored fo sch cache start end_) :
    (r.FailedOn.map Prod.snd).sum = r.Count ∧
    ∀ platform version : String, (∀ x ∈ platform.data, isLower x = true) →
      GoMap.get r.FailedOn (platform ++ " " ++ version) 0 =
        ∑ run in Finset.Icc start end_,
          (((rawFailures cache run).countP
            (fun raw => decide (parseTestName raw = some ⟨platform, version, r.Name⟩)) : Nat)
            : Int) := by
  obtain ⟨v, hv, -, -, hrec⟩ := scored_spec fo sch cache start end_ r hr
  have hf : r.FailedOn = v.FailedOn := (congrArg TestStats.FailedOn hv).trans (score_FailedOn _ _ _)
  have hc : r.Count = v.Count := (congrArg TestStats.Count hv).trans (score_Count _ _ _)
  refine ⟨by rw [hf, hc, hrec.total], ?_⟩
  intro platform version hlow
  have hkey : platform ++ " " ++ version = platformVersion ⟨platform, version, r.Name⟩ := rfl
  rw [hf, hkey, hrec.failedOn,
    count_by_run cache start end_ (fun p => decide (p.name = r.Name) &&
      decide (platformVersion p = platformVersion ⟨platform, version, r.Name⟩))]
  apply Finset.sum_congr rfl
  intro run _
  congr 1
  apply List.countP_congr
  intro raw _
  rw [onParsed_platformVersion r.Name ⟨platform, version, r.Name⟩ hlow raw]

theorem mem_scored_of_analyze {F : Type} (fo : FloatOps F) (sch : Schedule F) (cache : Cache)
    (start end_ : Int) (stats : List (TestStats F))
    (h : analyze fo sch cache start end_ = .ok stats) :
    WellFormed cache start end_ ∧ stats.Perm (scored fo sch cache start end_) := by
  have hwf := (analyze_ok_iff fo sch cache start end_).mp ⟨stats, h⟩
  obtain ⟨stats', h', hperm⟩ := analyze_perm fo sch cache start end_ hwf
  rw [h] at h'
  cases h'
  exact ⟨hwf, hperm⟩

theorem demoCache_wellFormed : WellFormed demoCache 1 3 := by
  intro run h1 h2
  have hcases : run = 1 ∨ run = 2 ∨ run = 3 := by omega
  rcases hcases with e | e | e <;> subst e
  · exact ⟨_, rfl, by decide⟩
  · exact ⟨_, rfl, by decide⟩
  · exact ⟨_, rfl, by decide⟩

theorem demoStats_eq : analyze exactFloat demoSchedule demoCache 1 3 = .ok demoStats := rfl

/-! ## The two sorts -/

theorem strLess_iff (a b : String) : strLess a b = true ↔ a < b := by
  unfold strLess
  rw [decide_eq_true_iff]
  exact String.lt_iff_toList_lt.symm

theorem strLess_eq_false (a b : String) : strLess b a = false ↔ a ≤ b := by
  rw [Bool.eq_false_iff, Ne, strLess_iff, not_lt]

theorem pairwise_orderedInsert_stable {α : Type} (r : α → α → Prop) [DecidableRel r]
    (S : α → α → Prop) (total : ∀ a b, r a b ∨ r b a) (trans : ∀ a b c, r a b → r b c → r a c)
    (a : α) (l : List α) (hS : ∀ b ∈ l, S a b)
    (hl : l.Pairwise (fun a b => r a b ∧ (r b a → S a b))) :
    (l.orderedInsert r a).Pairwise (fun a b => r a b ∧ (r b a → S a b)) := by
  induction l with
  | nil => simp
  | cons b l ih =>
    rw [List.pairwise_cons] at hl
    obtain ⟨hb, hl'⟩ := hl
    by_cases hab : r a b
    · simp only [List.orderedInsert, hab, if_true]
      refine List.Pairwise.cons ?_ (List.Pairwise.cons hb hl')
      intro x hx
      simp only [List.mem_cons] at hx
      rcases hx with e | hx
      · subst e
        exact ⟨hab, fun _ => hS _ (List.mem_cons_self _ _)⟩
      · exact ⟨trans a b x hab (hb x hx).1, fun _ => hS x (List.mem_cons_of_mem _ hx)⟩
    · simp only [List.orderedInsert, hab, if_false]
      refine List.Pairwise.cons ?_ (ih (fun x hx => hS x (List.mem_cons_of_mem _ hx)) hl')
      intro x hx
      rw [List.mem_orderedInsert] at hx
      rcases hx with e | hx
      · subst e
        exact ⟨(total x b).resolve_left hab, fun h => absurd h hab⟩
      · exact hb x hx

theorem pairwise_insertionSort_stable {α : Type} (r : α → α → Prop) [DecidableRel r]
    (S : α → α → Prop) (total : ∀ a b, r a b ∨ r b a) (trans : ∀ a b c, r a b → r b c → r a c)
    (l : List α) (hl : l.Pairwise S) :
    (l.insertionSort r).Pairwise (fun a b => r a b ∧ (r b a → S a b)) := by
  induction l with
  | nil => simp
  | cons a l ih =>
    rw [List.pairwise_cons] at hl
    simp only [List.insertionSort]
    apply pairwise_orderedInsert_stable r S total trans a _ _ (ih hl.2)
    intro b hb
    exact hl.1 b ((List.mem_insertionSort r).mp hb)

theorem nodup_names_scored {F : Type} (fo : FloatOps F) (sch : Schedule F) (cache : Cache)
    (start end_ : Int) :
    ((scored fo sch cache start end_).map (fun r => r.Name)).Nodup := by
  obtain ⟨hnd, hrec⟩ := aggInv_aggregate fo (occurrences cache (forRange start end_))
  have hmap : (scored fo sch cache start end_).map (fun r => r.Name) =
      (sch.results.order (aggregate fo (occurrences cache (forRange start end_)) [])).map
        Prod.fst := by
    unfold scored
    rw [List.map_map]
    apply List.map_congr_left
    intro kv hkv
    obtain ⟨k, v⟩ := kv
    rw [(sch.results.perm _).mem_iff] at hkv
    have hfind := GoMap.find?_of_mem _ hnd k v hkv
    have h1 := hrec k
    rw [hfind] at h1
    simp only [Function.comp, score_Name]
    exact h1.1
  rw [hmap]
  exact ((sch.results.perm _).map Prod.fst).nodup_iff.mpr hnd

theorem pairwise_name_sortSlice {F : Type} (ord : RangeOrder (TestStats F))
    (l : List (TestStats F)) (hnd : (l.map (fun r => r.Name)).Nodup) :
    (sortSlice ord (fun a b => strLess a.Name b.Name) l).Pairwise
      (fun a b => a.Name < b.Name) := by
  have hsorted := pairwise_insertionSort_stable
    (fun a b : TestStats F => strLess b.Name a.Name = false) (fun _ _ => True)
    (by
      intro a b
      rcases le_total a.Name b.Name with h | h
      · exact Or.inl ((strLess_eq_false _ _).mpr h)
      · exact Or.inr ((strLess_eq_false _ _).mpr h))
    (by
      intro a b c h1 h2
      exact (strLess_eq_false _ _).mpr
        (le_trans ((strLess_eq_false _ _).mp h1) ((strLess_eq_false _ _).mp h2)))
    (ord.order l) (List.pairwise_of_forall (fun _ _ => trivial))
  have hperm : (sortSlice ord (fun a b => strLess a.Name b.Name) l).Perm l :=
    perm_sortSlice _ _ _
  have hnd' : ((sortSlice ord (fun a b => strLess a.Name b.Name) l).map
      (fun r => r.Name)).Nodup := (hperm.map _).nodup_iff.mpr hnd
  have hne : (sortSlice ord (fun a b => strLess a.Name b.Name) l).Pairwise
      (fun a b => a.Name ≠ b.Name) := List.pairwise_map.mp hnd'
  have hle : (sortSlice ord (fun a b => strLess a.Name b.Name) l).Pairwise
      (fun a b => strLess b.Name a.Name = false) := hsorted.imp (fun h => h.1)
  refine (hle.and hne).imp ?_
  rintro a b ⟨h1, h2⟩
  exact lt_of_le_of_ne ((strLess_eq_false _ _).mp h1) h2

theorem pairwise_ranked {F : Type} (l : List (TestStats F))
    (hl : l.Pairwise (fun a b => a.Name < b.Name)) :
    (sortSliceStable (fun a b => decide (a.Count > b.Count)) l).Pairwise
      (fun a b => a.Count > b.Count ∨ (a.Count = b.Count ∧ a.Name < b.Name)) := by
  have h := pairwise_insertionSort_stable
    (fun a b : TestStats F => decide (b.Count > a.Count) = false) (fun a b => a.Name < b.Name)
    (by
      intro a b
      simp only [decide_eq_false_iff_not, gt_iff_lt, not_lt]
      exact le_total _ _)
    (by
      intro a b c h1 h2
      simp only [decide_eq_false_iff_not, gt_iff_lt, not_lt] at h1 h2 ⊢
      exact le_trans h2 h1)
    l hl
  refine h.imp ?_
  rintro a b ⟨h1, h2⟩
  simp only [decide_eq_false_iff_not, gt_iff_lt, not_lt] at h1 h2
  rcases lt_or_eq_of_le h1 with h3 | h3
  · exact Or.inl h3
  · exact Or.inr ⟨h3.symm, h2 (le_of_eq h3.symm)⟩

theorem perm_keys_scored {F : Type} (fo : FloatOps F) (sch : Schedule F) (cache : Cache)
    (start end_ : Int) :
    ((scored fo sch cache start end_).map (fun r => (r.Name, r.Count))).Perm
      ((aggregate fo (occurrences cache (forRange start end_)) []).map
        (fun kv => (kv.2.Name, kv.2.Count))) := by
  have hmap : (scored fo sch cache start end_).map (fun r => (r.Name, r.Count)) =
      (sch.results.order (aggregate fo (occurrences cache (forRange start end_)) [])).map
        (fun kv => (kv.2.Name, kv.2.Count)) := by
    unfold scored
    rw [List.map_map]
    apply List.map_congr_left
    intro kv _
    simp only [Function.comp, score_Name, score_Count]
  rw [hmap]
  exact (sch.results.perm _).map _

/-! ## analyze: counts, runs, platforms and ranking -/

/-- C1: when every run of the range has a cache file and every raw identifier in it matches
the pattern, `analyze` returns records, and the `Count` of each record is the number of raw
identifiers, added up over the runs of `[start, end]`, whose parsed test name is the record's
`Name`. Every occurrence counts once, whatever its run, platform or version. -/
theorem analyze_count_total {F : Type} (fo : FloatOps F) (sch : Schedule F) (cache : Cache)
    (start end_ : Int) (h : WellFormed cache start end_) :
    ∃ stats, analyze fo sch cache start end_ = .ok stats ∧
      ∀ r ∈ stats, r.Count = ∑ run in Finset.Icc start end_,
        (((rawFailures cache run).countP
          (fun raw => decide (parsedName raw = some r.Name)) : Nat) : Int) := by
  obtain ⟨stats, hs, hperm⟩ := analyze_perm fo sch cache start end_ h
  exact ⟨stats, hs, fun r hr => scored_count fo sch cache start end_ r (hperm.mem_iff.mp hr)⟩

/-- Witness of C1 on the three demonstration runs. -/
theorem analyze_count_total_witness :
    WellFormed demoCache 1 3 ∧
    ∃ stats, analyze exactFloat demoSchedule demoCache 1 3 = .ok stats ∧
      ∀ r ∈ stats, r.Count = ∑ run in Finset.Icc (1 : Int) 3,
        (((rawFailures demoCache run).countP
          (fun raw => decide (parsedName raw = some r.Name)) : Nat) : Int) :=
  ⟨demoCache_wellFormed,
    analyze_count_total exactFloat demoSchedule demoCache 1 3 demoCache_wellFormed⟩

/-- C2: on well-formed input, the `Run` field of each record returned by `analyze` has no
duplicates and holds exactly the run numbers of `[start, end]` whose raw list has an identifier
parsing to the record's `Name`. A run in which the test fails twice or more is in `Run` once,
while `Count` is at least two. -/
theorem analyze_run_set {F : Type} (fo : FloatOps F) (sch : Schedule F) (cache : Cache)
    (start end_ : Int) (h : WellFormed cache start end_) :
    ∃ stats, analyze fo sch cache start end_ = .ok stats ∧
      ∀ r ∈ stats, r.Run.Nodup ∧
        (∀ run, run ∈ r.Run ↔
          (start ≤ run ∧ run ≤ end_ ∧
            ∃ raw ∈ rawFailures cache run, parsedName raw = some r.Name)) ∧
        (∀ run, start ≤ run → run ≤ end_ →
          2 ≤ (rawFailures cache run).countP (fun raw => decide (parsedName raw = some r.Name)) →
          r.Run.count run = 1 ∧ 2 ≤ r.Count) := by
  obtain ⟨stats, hs, hperm⟩ := analyze_perm fo sch cache start end_ h
  refine ⟨stats, hs, fun r hr => ?_⟩
  have hsc := hperm.mem_iff.mp hr
  obtain ⟨hnd, hmem⟩ := scored_run fo sch cache start end_ r hsc
  refine ⟨hnd, hmem, ?_⟩
  intro run h1 h2 h3
  constructor
  · apply List.count_eq_one_of_mem hnd
    rw [hmem]
    refine ⟨h1, h2, ?_⟩
    have hpos : 0 < (rawFailures cache run).countP
        (fun raw => decide (parsedName raw = some r.Name)) := by omega
    obtain ⟨raw, hraw, hp⟩ := List.countP_pos_iff.mp hpos
    exact ⟨raw, hraw, by simpa using hp⟩
  · rw [scored_count fo sch cache start end_ r hsc]
    have hle := Finset.single_le_sum
      (f := fun run => (((rawFailures cache run).countP
        (fun raw => decide (parsedName raw = some r.Name)) : Nat) : Int))
      (s := Finset.Icc start end_) (fun i _ => Int.natCast_nonneg _)
      (Finset.mem_Icc.mpr ⟨h1, h2⟩)
    have h3' : (2 : Int) ≤ (((rawFailures cache run).countP
        (fun raw => decide (parsedName raw = some r.Name)) : Nat) : Int) := by exact_mod_cast h3
    exact le_trans h3' hle

/-- Witness of C2 on the three demonstration runs, where `foo` fails twice in run 2. -/
theorem analyze_run_set_witness :
    WellFormed demoCache 1 3 ∧
    ∃ stats, analyze exactFloat demoSchedule demoCache 1 3 = .ok stats ∧
      ∀ r ∈ stats, r.Run.Nodup ∧
        (∀ run, run ∈ r.Run ↔
          ((1 : Int) ≤ run ∧ run ≤ 3 ∧
            ∃ raw ∈ rawFailures demoCache run, parsedName raw = some r.Name)) ∧
        (∀ run, (1 : Int) ≤ run → run ≤ 3 →
          2 ≤ (rawFailures demoCache run).countP
            (fun raw => decide (parsedName raw = some r.Name)) →
          r.Run.count run = 1 ∧ 2 ≤ r.Count) :=
  ⟨demoCache_wellFormed,
    analyze_run_set exactFloat demoSchedule demoCache 1 3 demoCache_wellFormed⟩

/-- C3: every record that `analyze` returns has `Count` at least the length of its
(deduplicated) `Run`. -/
theorem analyze_count_ge_runs {F : Type} (fo : FloatOps F) (sch : Schedule F) (cache : Cache)
    (start end_ : Int) (stats : List (TestStats F))
    (h : analyze fo sch cache start end_ = .ok stats) :
    ∀ r ∈ stats, (r.Run.length : Int) ≤ r.Count := by
  obtain ⟨-, hperm⟩ := mem_scored_of_analyze fo sch cache start end_ stats h
  exact fun r hr => scored_length_le fo sch cache start end_ r (hperm.mem_iff.mp hr)

/-- Witness of C3: the records returned for the three demonstration runs. -/
theorem analyze_count_ge_runs_witness :
    analyze exactFloat demoSchedule demoCache 1 3 = .ok demoStats ∧
    ∀ r ∈ demoStats, (r.Run.length : Int) ≤ r.Count :=
  ⟨demoStats_eq, analyze_count_ge_runs exactFloat demoSchedule demoCache 1 3 demoStats demoStats_eq⟩

/-- C4: in every record that `analyze` returns, the values of `FailedOn` add up to `Count`,
and for every platform of lowercase letters (the only platforms the pattern yields) and every
version, `FailedOn["<platform> <version>"]` is the number of raw identifiers of the range that
parse to that platform, that version and the record's `Name`. -/
theorem analyze_failedOn {F : Type} (fo : FloatOps F) (sch : Schedule F) (cache : Cache)
    (start end_ : Int) (stats : List (TestStats F))
    (h : analyze fo sch cache start end_ = .ok stats) :
    ∀ r ∈ stats, (r.FailedOn.map Prod.snd).sum = r.Count ∧
      ∀ platform version : String, (∀ x ∈ platform.data, isLower x = true) →
        GoMap.get r.FailedOn (platform ++ " " ++ version) 0 =
          ∑ run in Finset.Icc start end_,
            (((rawFailures cache run).countP
              (fun raw => decide (parseTestName raw = some ⟨platform, version, r.Name⟩)) : Nat)
              : Int) := by
  obtain ⟨-, hperm⟩ := mem_scored_of_analyze fo sch cache start end_ stats h
  exact fun r hr => scored_failedOn fo sch cache start end_ r (hperm.mem_iff.mp hr)

/-- Witness of C4: the records returned for the three demonstration runs. -/
theorem analyze_failedOn_witness :
    analyze exactFloat demoSchedule demoCache 1 3 = .ok demoStats ∧
    ∀ r ∈ demoStats, (r.FailedOn.map Prod.snd).sum = r.Count ∧
      ∀ platform version : String, (∀ x ∈ platform.data, isLower x = true) →
        GoMap.get r.FailedOn (platform ++ " " ++ version) 0 =
          ∑ run in Finset.Icc (1 : Int) 3,
            (((rawFailures demoCache run).countP
              (fun raw => decide (parseTestName raw = some ⟨platform, version, r.Name⟩)) : Nat)
              : Int) :=
  ⟨demoStats_eq, analyze_failedOn exactFloat demoSchedule demoCache 1 3 demoStats demoStats_eq⟩

theorem analyze_pairwise {F : Type} (fo : FloatOps F) (sch : Schedule F) (cache : Cache)
    (start end_ : Int) (stats : List (TestStats F))
    (h : analyze fo sch cache start end_ = .ok stats) :
    stats.Pairwise (fun a b => a.Count > b.Count ∨ (a.Count = b.Count ∧ a.Name < b.Name)) := by
  have hwf := (analyze_ok_iff fo sch cache start end_).mp ⟨stats, h⟩
  rw [analyze_ok fo sch cache start end_ hwf] at h
  cases h
  exact pairwise_ranked _
    (pairwise_name_sortSlice _ _ (nodup_names_scored fo sch cache start end_))

theorem ranked_unique (l₁ l₂ : List (String × Int)) (hp : l₁.Perm l₂)
    (h₁ : l₁.Pairwise (fun a b => a.2 > b.2 ∨ (a.2 = b.2 ∧ a.1 < b.1)))
    (h₂ : l₂.Pairwise (fun a b => a.2 > b.2 ∨ (a.2 = b.2 ∧ a.1 < b.1))) : l₁ = l₂ := by
  haveI : IsAntisymm (String × Int) (fun a b => a.2 > b.2 ∨ (a.2 = b.2 ∧ a.1 < b.1)) :=
    ⟨by
      rintro a b (h | ⟨h, h'⟩) (k | ⟨k, k'⟩)
      · exact absurd h (not_lt.mpr (le_of_lt k))
      · exact absurd h (by rw [k]; exact lt_irrefl _)
      · exact absurd k (by rw [h]; exact lt_irrefl _)
      · exact absurd h' (not_lt.mpr (le_of_lt k'))⟩
  exact List.eq_of_perm_of_sorted hp h₁ h₂

/-- C5: the list `analyze` returns is ordered by `Count` descending, ties broken by `Name`
ascending: for positions `i < j`, either `Count[i] > Count[j]`, or the counts are equal and
`Name[i] < Name[j]`. The sequence of names and counts is the same under every iteration
order of the maps and every placement of equal elements by the unstable sort. -/
theorem analyze_ranked {F : Type} (fo : FloatOps F) (sch : Schedule F) (cache : Cache)
    (start end_ : Int) (stats : List (TestStats F))
    (h : analyze fo sch cache start end_ = .ok stats) :
    (∀ (i j : Nat) (hi : i < stats.length) (hj : j < stats.length), i < j →
      (stats.get ⟨i, hi⟩).Count > (stats.get ⟨j, hj⟩).Count ∨
      ((stats.get ⟨i, hi⟩).Count = (stats.get ⟨j, hj⟩).Count ∧
        (stats.get ⟨i, hi⟩).Name < (stats.get ⟨j, hj⟩).Name)) ∧
    ∀ (sch' : Schedule F) (stats' : List (TestStats F)),
      analyze fo sch' cache start end_ = .ok stats' →
      stats'.map (fun r => (r.Name, r.Count)) = stats.map (fun r => (r.Name, r.Count)) := by
  have hpw := analyze_pairwise fo sch cache start end_ stats h
  constructor
  · intro i j hi hj hij
    exact List.pairwise_iff_get.mp hpw ⟨i, hi⟩ ⟨j, hj⟩ hij
  · intro sch' stats' h'
    have hpw' := analyze_pairwise fo sch' cache start end_ stats' h'
    obtain ⟨-, hperm⟩ := mem_scored_of_analyze fo sch cache start end_ stats h
    obtain ⟨-, hperm'⟩ := mem_scored_of_analyze fo sch' cache start end_ stats' h'
    have hp : (stats'.map (fun r => (r.Name, r.Count))).Perm
        (stats.map (fun r => (r.Name, r.Count))) :=
      ((hperm'.map _).trans (perm_keys_scored fo sch' cache start end_)).trans
        ((hperm.map _).trans (perm_keys_scored fo sch cache start end_)).symm
    exact ranked_unique _ _ hp (List.pairwise_map.mpr hpw') (List.pairwise_map.mpr hpw)

/-- Witness of C5: two tests with one failure each come out as `bar`, `foo`, although `foo`
is met first. -/
theorem analyze_ranked_witness :
    analyze exactFloat demoSchedule tieCache 1 1 = .ok tieStats ∧
    (∀ (i j : Nat) (hi : i < tieStats.length) (hj : j < tieStats.length), i < j →
      (tieStats.get ⟨i, hi⟩).Count > (tieStats.get ⟨j, hj⟩).Count ∨
      ((tieStats.get ⟨i, hi⟩).Count = (tieStats.get ⟨j, hj⟩).Count ∧
        (tieStats.get ⟨i, hi⟩).Name < (tieStats.get ⟨j, hj⟩).Name)) ∧
    ∀ (sch' : Schedule XFloat) (stats' : List (TestStats XFloat)),
      analyze exactFloat sch' tieCache 1 1 = .ok stats' →
      stats'.map (fun r => (r.Name, r.Count)) = tieStats.map (fun r => (r.Name, r.Count)) :=
  ⟨rfl, analyze_ranked exactFloat demoSchedule tieCache 1 1 tieStats rfl⟩

/-! ## filter -/

theorem filter_inner {F : Type} (t : TestStats F) (fs : List (TestStats F → Bool))
    (acc : List (TestStats F)) :
    fs.foldl (fun tmp f => if f t = true then tmp ++ [t] else tmp) acc =
      acc ++ List.replicate (fs.countP (fun f => f t)) t := by
  induction fs generalizing acc with
  | nil => simp
  | cons f fs ih =>
    by_cases hf : f t = true
    · simp only [List.foldl_cons, hf, if_true, ih, List.countP_cons_of_pos, List.append_assoc,
        List.singleton_append, List.replicate_succ]
    · simp only [List.foldl_cons, hf, Bool.false_eq_true, if_false, ih]
      rw [List.countP_cons_of_neg _ _ (by simpa using hf)]

theorem filter_outer {F : Type} (ts : List (TestStats F)) (fs : List (TestStats F → Bool))
    (acc : List (TestStats F)) :
    ts.foldl
      (fun tmp t => fs.foldl (fun tmp f => if f t = true then tmp ++ [t] else tmp) tmp) acc =
      acc ++ ts.flatMap (fun t => List.replicate (fs.countP (fun f => f t)) t) := by
  induction ts generalizing acc with
  | nil => simp
  | cons t ts ih =>
    rw [List.foldl_cons, filter_inner, ih, List.flatMap_cons, List.append_assoc]

/-- What `filter` computes: each record as many times as there are predicates it passes. -/
theorem filter_eq {F : Type} (ts : List (TestStats F)) (fs : List (TestStats F → Bool)) :
    filter ts fs = ts.flatMap (fun t => List.replicate (fs.countP (fun f => f t)) t) := by
  unfold filter
  rw [filter_outer]
  simp

/-- C6 (the code departs from the claim): with the two predicates `StdDev > 1` and
`Count > 5`, `filter` keeps a record that fails the second one; with no predicate it drops a
record although no predicate rejects it. -/
theorem filter_keeps_record_failing_a_predicate :
    frequent demoRecord = false ∧
    filter [demoRecord] [spreadOut exactFloat, frequent] = [demoRecord] ∧
    filter [demoRecord] [] = [] := by
  decide

/-- C7 (the code departs from the claim): a record that passes two predicates comes out
twice, so the output is not a sub-sequence of the input. -/
theorem filter_duplicates_record :
    filter [demoRecord] [spreadOut exactFloat, recurring] = [demoRecord, demoRecord] ∧
    ¬ List.Sublist (filter [demoRecord] [spreadOut exactFloat, recurring]) [demoRecord] := by
  refine ⟨by decide, ?_⟩
  intro h
  have := h.length_le
  revert this
  decide

/-- C8 (the code departs from the claim): with two predicates that a record passes, a second
application of `filter` doubles the list again. -/
theorem filter_not_idempotent :
    filter [demoRecord] [spreadOut exactFloat, recurring] = [demoRecord, demoRecord] ∧
    filter (filter [demoRecord] [spreadOut exactFloat, recurring])
        [spreadOut exactFloat, recurring] =
      [demoRecord, demoRecord, demoRecord, demoRecord] ∧
    filter (filter [demoRecord] [spreadOut exactFloat, recurring])
        [spreadOut exactFloat, recurring] ≠
      filter [demoRecord] [spreadOut exactFloat, recurring] := by
  decide

/-! ## render -/

theorem length_countFrom (n : Nat) (i : Int) : (countFrom n i).length = n := by
  rw [countFrom_eq_map, List.length_map, List.length_range]

theorem getElem_countFrom (n : Nat) (i : Int) (k : Nat) (hk : k < (countFrom n i).length) :
    (countFrom n i)[k] = i + (k : Int) := by
  induction n generalizing i k with
  | zero => simp [countFrom] at hk
  | succ n ih =>
    cases k with
    | zero => simp [countFrom]
    | succ k =>
      simp only [countFrom, List.getElem_cons_succ]
      rw [ih]
      push_cast
      ring

theorem isSome_find?_runs (runs : List Int) (x : Int) :
    (GoMap.find? (runs.foldl (fun set v => GoMap.store set v ()) ([] : GoMap Int Unit)) x).isSome
      = true ↔ x ∈ runs := by
  rw [GoMap.find?_isSome, (keys_foldl_store runs []).2 x]
  simp

/-- C9: for `start ≤ end`, `render` hands the template the headers `start, start+1, ..., end`
and one row per record, in the order of `stats`: the row has the record's `Name` and
`end - start + 1` values, the one at position `i` being true exactly when `start + i` is in
the record's `Run`. -/
theorem render_matrix {F : Type} (stats : List (TestStats F)) (project branch : String)
    (start end_ : Int) (h : start ≤ end_) :
    (((render stats project branch start end_).Headers.length : Int) = end_ - start + 1 ∧
      ∀ (i : Nat) (hi : i < (render stats project branch start end_).Headers.length),
        (render stats project branch start end_).Headers.get ⟨i, hi⟩ = start + (i : Int)) ∧
    List.Forall₂
      (fun (v : TestStats F) (row : Row) =>
        row.Name = v.Name ∧ (row.Values.length : Int) = end_ - start + 1 ∧
        ∀ (i : Nat) (hi : i < row.Values.length),
          (row.Values.get ⟨i, hi⟩ = true ↔ start + (i : Int) ∈ v.Run))
      stats (render stats project branch start end_).Rows := by
  have hlen : ((forRange start end_).length : Int) = end_ - start + 1 := by
    unfold forRange
    rw [length_countFrom]
    omega
  refine ⟨⟨hlen, ?_⟩, ?_⟩
  · intro i hi
    simp only [render, forRange, List.get_eq_getElem]
    exact getElem_countFrom _ _ _ _
  · simp only [render]
    rw [List.forall₂_map_right_iff]
    apply List.forall₂_same.mpr
    intro v _
    refine ⟨rfl, by simpa using hlen, ?_⟩
    intro i hi
    simp only [List.get_eq_getElem, List.getElem_map, isSome_find?_runs]
    have hi' : i < (forRange start end_).length := by simpa using hi
    have hget : (forRange start end_)[i] = start + (i : Int) := getElem_countFrom _ _ _ _
    rw [hget]

/-- Witness of C9: runs `{3, 5}` over the range 1 to 5 give the row
`[false, false, true, false, true]` under the headers `[1, 2, 3, 4, 5]`. -/
theorem render_matrix_witness :
    (1 : Int) ≤ 5 ∧
    render [({ Run := [3, 5], Name := "foo", FailedOn := [], Count := 2, StdDev := .nan } :
        TestStats XFloat)] "project" "branch" 1 5 =
      { Title := "project - branch", Headers := [1, 2, 3, 4, 5],
        Rows := [{ Name := "foo", Values := [false, false, true, false, true] }] } ∧
    List.Forall₂
      (fun (v : TestStats XFloat) (row : Row) =>
        row.Name = v.Name ∧ (row.Values.length : Int) = 5 - 1 + 1 ∧
        ∀ (i : Nat) (hi : i < row.Values.length),
          (row.Values.get ⟨i, hi⟩ = true ↔ (1 : Int) + (i : Int) ∈ v.Run))
      [({ Run := [3, 5], Name := "foo", FailedOn := [], Count := 2, StdDev := .nan } :
        TestStats XFloat)]
      (render [({ Run := [3, 5], Name := "foo", FailedOn := [], Count := 2, StdDev := .nan } :
        TestStats XFloat)] "project" "branch" 1 5).Rows :=
  ⟨by decide, by decide,
    (render_matrix [({ Run := [3, 5], Name := "foo", FailedOn := [], Count := 2, StdDev := .nan } :
        TestStats XFloat)] "project" "branch" 1 5 (by decide)).2⟩

/-! ## The stored standard deviation -/

theorem exactFloat_nan_small (xs : List XFloat) (h : xs.length ≤ 1) :
    exactFloat.isNaN (exactFloat.stdDev xs) = true := by
  match xs, h with
  | [], _ => rfl
  | [x], _ => cases x <;> rfl

/-- C10: when the zero value of `float64` is not NaN, no record that `analyze` returns has a
NaN `StdDev`; and when the statistics routine yields NaN for fewer than two samples, a record
whose `Run` has at most one element has `StdDev` equal to zero. -/
theorem analyze_stdDev_not_nan {F : Type} (fo : FloatOps F) (hz : fo.isNaN fo.zero = false)
    (sch : Schedule F) (cache : Cache) (start end_ : Int) (stats : List (TestStats F))
    (h : analyze fo sch cache start end_ = .ok stats) :
    ∀ r ∈ stats, fo.isNaN r.StdDev = false ∧
      ((∀ xs : List F, xs.length ≤ 1 → fo.isNaN (fo.stdDev xs) = true) →
        r.Run.length ≤ 1 → r.StdDev = fo.zero) := by
  obtain ⟨-, hperm⟩ := mem_scored_of_analyze fo sch cache start end_ stats h
  intro r hr
  obtain ⟨v, hv, -, -, hrec⟩ := scored_spec fo sch cache start end_ r (hperm.mem_iff.mp hr)
  have hrun : r.Run = unique (sch.set r.Name) v.Run :=
    (congrArg TestStats.Run hv).trans (score_Run _ _ _)
  have hsd : r.StdDev =
      if fo.isNaN (fo.stdDev ((unique (sch.set r.Name) v.Run).map fo.ofInt)) = true then fo.zero
      else fo.stdDev ((unique (sch.set r.Name) v.Run).map fo.ofInt) := by
    rw [← hrec.stdDev]
    exact (congrArg TestStats.StdDev hv).trans (score_StdDev _ _ _)
  constructor
  · rw [hsd]
    by_cases hn : fo.isNaN (fo.stdDev ((unique (sch.set r.Name) v.Run).map fo.ofInt)) = true
    · rw [if_pos hn]
      exact hz
    · rw [if_neg hn]
      simpa using hn
  · intro hlib hlen
    rw [hsd, if_pos]
    apply hlib
    rw [List.length_map, ← hrun]
    exact hlen

/-- Witness of C10: in the records returned for the three demonstration runs, `bar` (one run)
has `StdDev` zero and `foo` (two runs) has the square root of one half. -/
theorem analyze_stdDev_not_nan_witness :
    exactFloat.isNaN exactFloat.zero = false ∧
    analyze exactFloat demoSchedule demoCache 1 3 = .ok demoStats ∧
    ∀ r ∈ demoStats, exactFloat.isNaN r.StdDev = false ∧
      (r.Run.length ≤ 1 → r.StdDev = exactFloat.zero) :=
  ⟨rfl, demoStats_eq, fun r hr =>
    ⟨(analyze_stdDev_not_nan exactFloat rfl demoSchedule demoCache 1 3 demoStats
        demoStats_eq r hr).1,
      (analyze_stdDev_not_nan exactFloat rfl demoSchedule demoCache 1 3 demoStats
        demoStats_eq r hr).2 exactFloat_nan_small⟩⟩

/-! ## Failures of analyze -/

theorem scanTests_error {F : Type} (fo : FloatOps F) (run : Int) (tests : List JenkinsTestResult)
    (m : GoMap String (TestStats F)) (e : Failure) (h : scanTests fo run tests m = .error e) :
    ∃ t ∈ tests, parseTestName t.Name = none ∧ e = .indexOutOfRange run t.Name := by
  induction tests generalizing m with
  | nil => simp [scanTests] at h
  | cons t rest ih =>
    cases hp : parseTestName t.Name with
    | none =>
      simp only [scanTests, hp, Except.error.injEq] at h
      exact ⟨t, List.mem_cons_self _ _, hp, h.symm⟩
    | some p =>
      simp only [scanTests, hp] at h
      obtain ⟨t', ht', h1, h2⟩ := ih _ h
      exact ⟨t', List.mem_cons_of_mem _ ht', h1, h2⟩

theorem scanRuns_error {F : Type} (fo : FloatOps F) (cache : Cache) (runs : List Int)
    (m : GoMap String (TestStats F)) (e : Failure) (h : scanRuns fo cache runs m = .error e) :
    (∃ run ∈ runs, cache run = none ∧ e = .openError run) ∨
    (∃ run ∈ runs, ∃ raw ∈ rawFailures cache run,
      parseTestName raw = none ∧ e = .indexOutOfRange run raw) := by
  induction runs generalizing m with
  | nil => simp [scanRuns] at h
  | cons run rest ih =>
    cases hf : cache run with
    | none =>
      simp only [scanRuns, hf, Except.error.injEq] at h
      exact Or.inl ⟨run, List.mem_cons_self _ _, hf, h.symm⟩
    | some f =>
      cases hs : scanTests fo run f.decoded m with
      | error e' =>
        simp only [scanRuns, hf, hs, Except.error.injEq] at h
        obtain ⟨t, ht, h1, h2⟩ := scanTests_error fo run f.decoded m e' hs
        refine Or.inr ⟨run, List.mem_cons_self _ _, t.Name, ?_, h1, ?_⟩
        · simp only [rawFailures, hf, List.mem_map]
          exact ⟨t, ht, rfl⟩
        · rw [← h, h2]
      | ok m1 =>
        simp only [scanRuns, hf, hs] at h
        rcases ih _ h with ⟨r, hr, h1, h2⟩ | ⟨r, hr, raw, hraw, h1, h2⟩
        · exact Or.inl ⟨r, List.mem_cons_of_mem _ hr, h1, h2⟩
        · exact Or.inr ⟨r, List.mem_cons_of_mem _ hr, raw, hraw, h1, h2⟩

theorem analyze_error {F : Type} (fo : FloatOps F) (sch : Schedule F) (cache : Cache)
    (start end_ : Int) (e : Failure) (h : analyze fo sch cache start end_ = .error e) :
    (∃ run, start ≤ run ∧ run ≤ end_ ∧ cache run = none ∧ e = .openError run) ∨
    (∃ run, start ≤ run ∧ run ≤ end_ ∧ ∃ raw ∈ rawFailures cache run,
      parseTestName raw = none ∧ e = .indexOutOfRange run raw) := by
  unfold analyze at h
  cases hs : scanRuns fo cache (forRange start end_) [] with
  | ok m => simp [hs] at h
  | error e' =>
    simp only [hs, Except.error.injEq] at h
    subst h
    rcases scanRuns_error fo cache _ [] e' hs with ⟨r, hr, h1, h2⟩ | ⟨r, hr, raw, hraw, h1, h2⟩
    · rw [mem_forRange] at hr
      exact Or.inl ⟨r, hr.1, hr.2, h1, h2⟩
    · rw [mem_forRange] at hr
      exact Or.inr ⟨r, hr.1, hr.2, raw, hraw, h1, h2⟩

theorem not_wellFormed_of_malformed (cache : Cache) (start end_ run : Int) (raw : String)
    (h1 : start ≤ run) (h2 : run ≤ end_) (hraw : raw ∈ rawFailures cache run)
    (hbad : parseTestName raw = none) : ¬ WellFormed cache start end_ := by
  intro hwf
  obtain ⟨f, hf, hall⟩ := hwf run h1 h2
  simp only [rawFailures, hf, List.mem_map] at hraw
  obtain ⟨t, ht, hname⟩ := hraw
  have := hall t ht
  rw [hname, hbad] at this
  simp at this

/-- C12: when some raw identifier of some run of `[start, end]` does not match the pattern,
`analyze` returns no records under any schedule: it ends in a failure, which is either the
error of a run whose file does not open or the index-out-of-range panic at an identifier that
does not match. -/
theorem analyze_malformed_fails {F : Type} (fo : FloatOps F) (sch : Schedule F) (cache : Cache)
    (start end_ run : Int) (raw : String) (h1 : start ≤ run) (h2 : run ≤ end_)
    (hraw : raw ∈ rawFailures cache run) (hbad : parseTestName raw = none) :
    (∀ stats, analyze fo sch cache start end_ ≠ .ok stats) ∧
    ∃ e, analyze fo sch cache start end_ = .error e ∧
      ((∃ run', start ≤ run' ∧ run' ≤ end_ ∧ cache run' = none ∧ e = .openError run') ∨
       (∃ run', start ≤ run' ∧ run' ≤ end_ ∧ ∃ raw' ∈ rawFailures cache run',
          parseTestName raw' = none ∧ e = .indexOutOfRange run' raw')) := by
  have hnot : ∀ stats, analyze fo sch cache start end_ ≠ .ok stats := by
    intro stats hs
    exact not_wellFormed_of_malformed cache start end_ run raw h1 h2 hraw hbad
      ((analyze_ok_iff fo sch cache start end_).mp ⟨stats, hs⟩)
  refine ⟨hnot, ?_⟩
  cases ha : analyze fo sch cache start end_ with
  | ok stats => exact absurd ha (hnot stats)
  | error e => exact ⟨e, rfl, analyze_error fo sch cache start end_ e ha⟩

/-- Witness of C12: the identifier with platform `Linux` makes `analyze` fail. -/
theorem analyze_malformed_fails_witness :
    "Tests / Linux - 1.2.3 - test / foo" ∈ rawFailures badCache 1 ∧
    parseTestName "Tests / Linux - 1.2.3 - test / foo" = none ∧
    analyze exactFloat demoSchedule badCache 1 1 =
      .error (.indexOutOfRange 1 "Tests / Linux - 1.2.3 - test / foo") ∧
    (∀ stats, analyze exactFloat demoSchedule badCache 1 1 ≠ .ok stats) :=
  ⟨by decide, by decide, rfl,
    (analyze_malformed_fails exactFloat demoSchedule badCache 1 1 1
      "Tests / Linux - 1.2.3 - test / foo" (by decide) (by decide) (by decide) (by decide)).1⟩

/-- C16 (the code departs from the claim): the file of run 2 cannot be decoded, and `analyze`
returns the records computed from run 1 and an empty reading of run 2. A file that cannot be
opened, by contrast, makes it return an error. -/
theorem analyze_ignores_decode_error :
    (corruptCache 2).map (fun f => f.decodeErr) = some true ∧
    analyze exactFloat demoSchedule corruptCache 1 2 =
      .ok [{ Run := [1], Name := "foo", FailedOn := [("linux 1.2.3", 1)], Count := 1,
             StdDev := .int 0 }] ∧
    analyze exactFloat demoSchedule corruptCache 1 3 = .error (.openError 3) :=
  ⟨rfl, rfl, rfl⟩

/-! ## The checks of main on the range -/

theorem checkFlags_none_iff (project branch : String) (start end_ : Int)
    (hp : project.length ≠ 0) (hb : branch.length ≠ 0) :
    checkFlags project branch start end_ = none ↔ start ≠ 0 ∧ end_ ≠ 0 ∧ start ≤ end_ := by
  unfold checkFlags
  simp only [hp, hb, if_false]
  by_cases h0 : end_ = 0 ∨ start = 0
  · simp only [h0, if_true]
    constructor
    · intro h
      cases h
    · rintro ⟨h1, h2, -⟩
      rcases h0 with h0 | h0
      · exact absurd h0 h2
      · exact absurd h0 h1
  · simp only [h0, if_false]
    push_neg at h0
    by_cases h1 : end_ < start
    · simp only [h1, if_true]
      constructor
      · intro h
        cases h
      · rintro ⟨-, -, h2⟩
        omega
    · simp only [h1, if_false, true_iff]
      exact ⟨h0.2, h0.1, by omega⟩

/-- C15, as the code has it: with a project and a branch given, `main` goes on to `fetch` and
`analyze` exactly for the pairs with `start ≠ 0`, `end ≠ 0` and `end ≥ start`; it exits with
status 1 for every pair with `end < start` and every pair with `start = 0` or `end = 0`. -/
theorem checkFlags_accepts_iff (project branch : String) (start end_ : Int)
    (hp : project.length ≠ 0) (hb : branch.length ≠ 0) :
    (checkFlags project branch start end_ = none ↔ start ≠ 0 ∧ end_ ≠ 0 ∧ start ≤ end_) ∧
    (end_ < start ∨ start = 0 ∨ end_ = 0 →
      checkFlags project branch start end_ = some .zeroRange ∨
      checkFlags project branch start end_ = some .endBeforeStart) := by
  refine ⟨checkFlags_none_iff project branch start end_ hp hb, ?_⟩
  intro h
  unfold checkFlags
  simp only [hp, hb, if_false]
  by_cases h0 : end_ = 0 ∨ start = 0
  · simp [h0]
  · have h1 : end_ < start := by
      push_neg at h0
      rcases h with h | h | h
      · exact h
      · exact absurd h h0.2
      · exact absurd h h0.1
    simp [h0, h1]

/-- Witness of C15: the pair `(3, 7)` is accepted and the pair `(7, 3)` is rejected. -/
theorem checkFlags_accepts_iff_witness :
    "project".length ≠ 0 ∧ "branch".length ≠ 0 ∧
    checkFlags "project" "branch" 3 7 = none ∧
    checkFlags "project" "branch" 7 3 = some .endBeforeStart ∧
    (checkFlags "project" "branch" 3 7 = none ↔ (3 : Int) ≠ 0 ∧ (7 : Int) ≠ 0 ∧ (3 : Int) ≤ 7) :=
  ⟨by decide, by decide, by decide, by decide,
    (checkFlags_accepts_iff "project" "branch" 3 7 (by decide) (by decide)).1⟩

/-- C15 as stated fails: the pair `(-5, -1)`, both non-positive, is accepted. -/
theorem checkFlags_accepts_negative :
    checkFlags "project" "branch" (-5) (-1) = none ∧ ¬ ((-5 : Int) > 0) := by
  decide

/-! ## filter with one predicate -/

theorem filter_one {F : Type} (ts : List (TestStats F)) (f : TestStats F → Bool) :
    filter ts [f] = ts.filter f := by
  rw [filter_eq]
  induction ts with
  | nil => rfl
  | cons t ts ih =>
    by_cases hf : f t = true
    · simp [List.flatMap_cons, hf, ih, List.filter_cons]
    · simp [List.flatMap_cons, hf, ih, List.filter_cons]

/-- C18: with exactly one predicate `f`, `filter ts [f]` is the list of the records of `ts`
for which `f` is true, in their order and with their multiplicity; so the call in `main`
keeps exactly the records with `StdDev > 1`. -/
theorem filter_single {F : Type} (fo : FloatOps F) :
    (∀ (ts : List (TestStats F)) (f : TestStats F → Bool), filter ts [f] = ts.filter f) ∧
    (∀ stats : List (TestStats F),
      mainFilter fo stats = stats.filter (fun ts => fo.gtOne ts.StdDev)) :=
  ⟨filter_one, fun stats => filter_one stats _⟩

/-! ## One record per test name -/

theorem occurs_iff (cache : Cache) (start end_ : Int) (name : String) :
    (∃ o ∈ occurrences cache (forRange start end_), o.2.name = name) ↔
      ∃ run, start ≤ run ∧ run ≤ end_ ∧
        ∃ raw ∈ rawFailures cache run, parsedName raw = some name := by
  constructor
  · rintro ⟨⟨x, p⟩, ho, hn⟩
    rw [mem_occurrences, mem_forRange] at ho
    obtain ⟨hx, raw, hraw, hp⟩ := ho
    refine ⟨x, hx.1, hx.2, raw, hraw, ?_⟩
    simp only at hp hn
    simp [parsedName, hp, hn]
  · rintro ⟨run, h1, h2, raw, hraw, hp⟩
    simp only [parsedName, Option.map_eq_some'] at hp
    obtain ⟨p, hp, hn⟩ := hp
    refine ⟨(run, p), ?_, hn⟩
    rw [mem_occurrences, mem_forRange]
    exact ⟨⟨h1, h2⟩, raw, hraw, hp⟩

theorem scored_name_iff {F : Type} (fo : FloatOps F) (sch : Schedule F) (cache : Cache)
    (start end_ : Int) (name : String) :
    (∃ r ∈ scored fo sch cache start end_, r.Name = name) ↔
      ∃ run, start ≤ run ∧ run ≤ end_ ∧
        ∃ raw ∈ rawFailures cache run, parsedName raw = some name := by
  rw [← occurs_iff]
  constructor
  · rintro ⟨r, hr, hn⟩
    obtain ⟨v, -, -, hex, -⟩ := scored_spec fo sch cache start end_ r hr
    rw [hn] at hex
    exact hex
  · rintro ⟨o, ho, hn⟩
    obtain ⟨-, hrec⟩ := aggInv_aggregate fo (occurrences cache (forRange start end_))
    have h1 := hrec name
    cases hfind : GoMap.find? (aggregate fo (occurrences cache (forRange start end_)) []) name with
    | none =>
      rw [hfind] at h1
      exact absurd hn (h1 o ho)
    | some v =>
      rw [hfind] at h1
      refine ⟨score fo (sch.set name) v, ?_, ?_⟩
      · unfold scored
        rw [List.mem_map]
        exact ⟨(name, v), (sch.results.perm _).mem_iff.mpr (GoMap.mem_of_find? _ _ _ hfind), rfl⟩
      · rw [score_Name]
        exact h1.1

theorem scored_nonempty {F : Type} (fo : FloatOps F) (sch : Schedule F) (cache : Cache)
    (start end_ : Int) (r : TestStats F) (hr : r ∈ scored fo sch cache start end_) :
    1 ≤ r.Count ∧ r.Run ≠ [] := by
  obtain ⟨run, h1, h2, raw, hraw, hp⟩ :=
    (scored_name_iff fo sch cache start end_ r.Name).mp ⟨r, hr, rfl⟩
  constructor
  · rw [scored_count fo sch cache start end_ r hr]
    have hle := Finset.single_le_sum
      (f := fun run => (((rawFailures cache run).countP
        (fun raw => decide (parsedName raw = some r.Name)) : Nat) : Int))
      (s := Finset.Icc start end_) (fun i _ => Int.natCast_nonneg _)
      (Finset.mem_Icc.mpr ⟨h1, h2⟩)
    have hpos : 0 < (rawFailures cache run).countP
        (fun raw => decide (parsedName raw = some r.Name)) :=
      List.countP_pos_iff.mpr ⟨raw, hraw, by simpa using hp⟩
    have hpos' : (1 : Int) ≤ (((rawFailures cache run).countP
        (fun raw => decide (parsedName raw = some r.Name)) : Nat) : Int) := by exact_mod_cast hpos
    exact le_trans hpos' hle
  · have hmem : run ∈ r.Run :=
      ((scored_run fo sch cache start end_ r hr).2 run).mpr ⟨h1, h2, raw, hraw, hp⟩
    exact List.ne_nil_of_mem hmem

/-- C19: on well-formed input `analyze` returns exactly one record per test name met in the
runs of `[start, end]`: the names of the records are pairwise distinct, a name is the `Name`
of a record exactly when some identifier of some run of the range parses to it, and every
record has `Count ≥ 1` and a non-empty `Run`. -/
theorem analyze_one_record_per_name {F : Type} (fo : FloatOps F) (sch : Schedule F)
    (cache : Cache) (start end_ : Int) (h : WellFormed cache start end_) :
    ∃ stats, analyze fo sch cache start end_ = .ok stats ∧
      (stats.map (fun r => r.Name)).Nodup ∧
      (∀ name, (∃ r ∈ stats, r.Name = name) ↔
        ∃ run, start ≤ run ∧ run ≤ end_ ∧
          ∃ raw ∈ rawFailures cache run, parsedName raw = some name) ∧
      ∀ r ∈ stats, 1 ≤ r.Count ∧ r.Run ≠ [] := by
  obtain ⟨stats, hs, hperm⟩ := analyze_perm fo sch cache start end_ h
  refine ⟨stats, hs, ?_, ?_, ?_⟩
  · exact ((hperm.map _).nodup_iff).mpr (nodup_names_scored fo sch cache start end_)
  · intro name
    rw [← scored_name_iff fo sch cache start end_ name]
    constructor
    · rintro ⟨r, hr, hn⟩
      exact ⟨r, hperm.mem_iff.mp hr, hn⟩
    · rintro ⟨r, hr, hn⟩
      exact ⟨r, hperm.mem_iff.mpr hr, hn⟩
  · exact fun r hr => scored_nonempty fo sch cache start end_ r (hperm.mem_iff.mp hr)

/-- Witness of C19 on the three demonstration runs. -/
theorem analyze_one_record_per_name_witness :
    WellFormed demoCache 1 3 ∧
    ∃ stats, analyze exactFloat demoSchedule demoCache 1 3 = .ok stats ∧
      (stats.map (fun r => r.Name)).Nodup ∧
      (∀ name, (∃ r ∈ stats, r.Name = name) ↔
        ∃ run, (1 : Int) ≤ run ∧ run ≤ 3 ∧
          ∃ raw ∈ rawFailures demoCache run, parsedName raw = some name) ∧
      ∀ r ∈ stats, 1 ≤ r.Count ∧ r.Run ≠ [] :=
  ⟨demoCache_wellFormed,
    analyze_one_record_per_name exactFloat demoSchedule demoCache 1 3 demoCache_wellFormed⟩

/-! ## The end-to-end scenario -/

theorem perm_pair_cases {α : Type} (l : List α) (a b : α) (h : l.Perm [a, b]) :
    l = [a, b] ∨ l = [b, a] := by
  have hlen := h.length_eq
  match l, hlen with
  | [x, y], _ =>
    have hx : x ∈ [a, b] := h.mem_iff.mp (List.mem_cons_self _ _)
    simp only [List.mem_cons, List.mem_singleton, List.not_mem_nil, or_false] at hx
    rcases hx with hx | hx
    · subst hx
      have h2 := (List.perm_cons x).mp h
      rw [List.perm_singleton] at h2
      exact Or.inl (by rw [h2])
    · subst hx
      have h2 := (List.perm_cons x).mp (h.trans (List.Perm.swap x a []))
      rw [List.perm_singleton] at h2
      exact Or.inr (by rw [h2])

theorem scenarioCache_wellFormed : WellFormed scenarioCache 1 3 := by
  intro run h1 h2
  have hcases : run = 1 ∨ run = 2 ∨ run = 3 := by omega
  rcases hcases with e | e | e <;> subst e
  · exact ⟨_, rfl, by decide⟩
  · exact ⟨_, rfl, by decide⟩
  · exact ⟨_, rfl, by decide⟩

theorem scenario_aggregate {F : Type} (fo : FloatOps F) :
    aggregate fo (occurrences scenarioCache (forRange 1 3)) [] =
      [("foo", { Run := [1, 2], Name := "foo", FailedOn := [("linux 1.2.3", 2)], Count := 2,
                 StdDev := fo.zero }),
       ("bar", { Run := [2], Name := "bar", FailedOn := [("osx 1.2.3", 1)], Count := 1,
                 StdDev := fo.zero })] := rfl

theorem unique_pair (ord : RangeOrder (Int × Unit)) : (unique ord [1, 2]).Perm [1, 2] :=
  (ord.perm [((1 : Int), ()), (2, ())]).map Prod.fst

theorem unique_single (ord : RangeOrder (Int × Unit)) : unique ord [2] = [2] :=
  List.perm_singleton.mp ((ord.perm [((2 : Int), ())]).map Prod.fst)

theorem gtOne_score {F : Type} (fo : FloatOps F) (ord : RangeOrder (Int × Unit))
    (v : TestStats F) (hv : v.StdDev = fo.zero) (h0 : fo.gtOne fo.zero = false)
    (hsd : fo.gtOne (fo.stdDev ((unique ord v.Run).map fo.ofInt)) = false) :
    fo.gtOne (score fo ord v).StdDev = false := by
  rw [score_StdDev]
  by_cases hn : fo.isNaN (fo.stdDev ((unique ord v.Run).map fo.ofInt)) = true
  · rw [if_pos hn, hv]
    exact h0
  · rw [if_neg hn]
    exact hsd

/-- C17: for the runs 1 to 3 of the scenario, `analyze` returns, under every schedule, exactly
two records in the order `foo`, `bar`: `foo` with `Count = 2`, runs 1 and 2 and
`FailedOn = {"linux 1.2.3": 2}`, `bar` with `Count = 1`, run 2 and
`FailedOn = {"osx 1.2.3": 1}`. When zero and the standard deviations of the samples `(1, 2)`
and `(2)` are not above 1, the filter `StdDev > 1` of `main` then excludes both. -/
theorem scenario_three_runs {F : Type} (fo : FloatOps F) (sch : Schedule F) :
    ∃ rfoo rbar, analyze fo sch scenarioCache 1 3 = .ok [rfoo, rbar] ∧
      rfoo.Name = "foo" ∧ rfoo.Count = 2 ∧ rfoo.Run.Perm [1, 2] ∧
      rfoo.FailedOn = [("linux 1.2.3", 2)] ∧
      rbar.Name = "bar" ∧ rbar.Count = 1 ∧ rbar.Run = [2] ∧
      rbar.FailedOn = [("osx 1.2.3", 1)] ∧
      (fo.gtOne fo.zero = false →
        (∀ xs : List Int, xs.Perm [1, 2] ∨ xs = [2] →
          fo.gtOne (fo.stdDev (xs.map fo.ofInt)) = false) →
        mainFilter fo [rfoo, rbar] = []) := by
  obtain ⟨stats, hs, hperm⟩ := analyze_perm fo sch scenarioCache 1 3 scenarioCache_wellFormed
  have hpw := analyze_pairwise fo sch scenarioCache 1 3 stats hs
  have hsc : (scored fo sch scenarioCache 1 3).Perm
      [score fo (sch.set "foo")
          { Run := [1, 2], Name := "foo", FailedOn := [("linux 1.2.3", 2)], Count := 2,
            StdDev := fo.zero },
        score fo (sch.set "bar")
          { Run := [2], Name := "bar", FailedOn := [("osx 1.2.3", 1)], Count := 1,
            StdDev := fo.zero }] := by
    unfold scored
    rw [scenario_aggregate]
    exact (sch.results.perm _).map _
  have hfilter : fo.gtOne fo.zero = false →
      (∀ xs : List Int, xs.Perm [1, 2] ∨ xs = [2] →
        fo.gtOne (fo.stdDev (xs.map fo.ofInt)) = false) →
      mainFilter fo
        [score fo (sch.set "foo")
            { Run := [1, 2], Name := "foo", FailedOn := [("linux 1.2.3", 2)], Count := 2,
              StdDev := fo.zero },
          score fo (sch.set "bar")
            { Run := [2], Name := "bar", FailedOn := [("osx 1.2.3", 1)], Count := 1,
              StdDev := fo.zero }] = [] := by
    intro h0 hsd
    have h1 := gtOne_score fo (sch.set "foo")
      { Run := [1, 2], Name := "foo", FailedOn := [("linux 1.2.3", 2)], Count := 2,
        StdDev := fo.zero } rfl h0 (hsd _ (Or.inl (unique_pair _)))
    have h2 := gtOne_score fo (sch.set "bar")
      { Run := [2], Name := "bar", FailedOn := [("osx 1.2.3", 1)], Count := 1,
        StdDev := fo.zero } rfl h0 (hsd _ (Or.inr (unique_single _)))
    unfold mainFilter
    rw [filter_one]
    simp [List.filter_cons, h1, h2]
  rcases perm_pair_cases _ _ _ (hperm.trans hsc) with h | h
  · subst h
    refine ⟨_, _, hs, ?_, ?_, ?_, ?_, ?_, ?_, ?_, ?_, hfilter⟩
    · rw [score_Name]
    · rw [score_Count]
    · rw [score_Run]
      exact unique_pair _
    · rw [score_FailedOn]
    · rw [score_Name]
    · rw [score_Count]
    · rw [score_Run]
      exact unique_single _
    · rw [score_FailedOn]
  · subst h
    rw [List.pairwise_pair] at hpw
    simp only [score_Count, score_Name] at hpw
    rcases hpw with h | ⟨h, -⟩
    · exact absurd h (by decide)
    · exact absurd h (by decide)

theorem exactFloat_scenario_samples (xs : List Int) (h : xs.Perm [1, 2] ∨ xs = [2]) :
    exactFloat.gtOne (exactFloat.stdDev (xs.map exactFloat.ofInt)) = false := by
  rcases h with h | h
  · rcases perm_pair_cases _ _ _ h with e | e <;> subst e <;> rfl
  · subst h
    rfl

/-- Witness of C17 with exact arithmetic, where the standard deviations are the square root
of one half for `foo` and zero for `bar`. -/
theorem scenario_three_runs_witness :
    exactFloat.gtOne exactFloat.zero = false ∧
    analyze exactFloat demoSchedule scenarioCache 1 3 =
      .ok [{ Run := [2, 1], Name := "foo", FailedOn := [("linux 1.2.3", 2)], Count := 2,
             StdDev := .sqrt 1 2 },
           { Run := [2], Name := "bar", FailedOn := [("osx 1.2.3", 1)], Count := 1,
             StdDev := .int 0 }] ∧
    ∃ rfoo rbar, analyze exactFloat demoSchedule scenarioCache 1 3 = .ok [rfoo, rbar] ∧
      mainFilter exactFloat [rfoo, rbar] = [] :=
  ⟨rfl, rfl,
    (scenario_three_runs exactFloat demoSchedule).elim fun rfoo h =>
      h.elim fun rbar h =>
        ⟨rfoo, rbar, h.1, h.2.2.2.2.2.2.2.2.2 rfl exactFloat_scenario_samples⟩⟩

/-! ## Which standard deviation is stored -/

theorem scored_stdDev {F : Type} (fo : FloatOps F) (sch : Schedule F) (cache : Cache)
    (start end_ : Int) (r : TestStats F) (hr : r ∈ scored fo sch cache start end_) :
    r.StdDev =
      if fo.isNaN (fo.stdDev (r.Run.map fo.ofInt)) = true then fo.zero
      else fo.stdDev (r.Run.map fo.ofInt) := by
  obtain ⟨v, hv, -, -, hrec⟩ := scored_spec fo sch cache start end_ r hr
  have hrun : r.Run = unique (sch.set r.Name) v.Run :=
    (congrArg TestStats.Run hv).trans (score_Run _ _ _)
  rw [hrun, ← hrec.stdDev]
  exact (congrArg TestStats.StdDev hv).trans (score_StdDev _ _ _)

theorem mapM_toInt (xs : List Int) :
    (xs.map XFloat.int).mapM XFloat.toInt? = some xs := by
  rw [← List.mapM'_eq_mapM]
  induction xs with
  | nil => rfl
  | cons x xs ih => simp [List.mapM'_cons, XFloat.toInt?, ih]

theorem exactFloat_stdDev (xs : List Int) (h : 2 ≤ xs.length) :
    exactFloat.stdDev (xs.map exactFloat.ofInt) =
      .sqrt (sampleVarianceNum xs) (xs.length * (xs.length - 1)) := by
  have hlt : ¬ xs.length < 2 := by omega
  show (match (xs.map XFloat.int).mapM XFloat.toInt? with
    | none => XFloat.nan
    | some ns =>
      if ns.length < 2 then XFloat.nan
      else XFloat.sqrt (sampleVarianceNum ns) (ns.length * (ns.length - 1))) = _
  rw [mapM_toInt]
  simp only [hlt, if_false]

theorem cast_list_sum (xs : List Int) :
    ((xs.sum : Int) : ℚ) = (xs.map (fun (x : Int) => (x : ℚ))).sum := by
  induction xs with
  | nil => simp
  | cons x xs ih => simp [ih]

theorem sum_sq_dev (xs : List Int) (μ : ℚ) :
    (xs.map (fun (x : Int) => ((x : ℚ) - μ) ^ 2)).sum =
      (xs.map (fun (x : Int) => (x : ℚ) * (x : ℚ))).sum
        - 2 * μ * (xs.map (fun (x : Int) => (x : ℚ))).sum + (xs.length : ℚ) * μ ^ 2 := by
  induction xs with
  | nil => simp
  | cons x xs ih =>
    simp only [List.map_cons, List.sum_cons, ih, List.length_cons, Nat.cast_succ]
    ring

theorem sampleVariance_eq (xs : List Int) (h : 2 ≤ xs.length) :
    ((sampleVarianceNum xs : Int) : ℚ) / ((xs.length * (xs.length - 1) : Nat) : ℚ) =
      sampleVariance xs := by
  have hn : (xs.length : ℚ) ≠ 0 := by
    have : 0 < xs.length := by omega
    exact_mod_cast this.ne'
  have hn1 : (xs.length : ℚ) - 1 ≠ 0 := by
    have h2 : (2 : ℚ) ≤ (xs.length : ℚ) := by exact_mod_cast h
    intro h0
    rw [sub_eq_zero] at h0
    rw [h0] at h2
    norm_num at h2
  have hcast : ((xs.length * (xs.length - 1) : Nat) : ℚ) = (xs.length : ℚ) * ((xs.length : ℚ) - 1) := by
    rw [Nat.cast_mul, Nat.cast_sub (by omega)]
    simp
  have hA : (List.map Int.cast (List.map (fun x => x * x) xs) : List ℚ) =
      xs.map (fun (x : Int) => (x : ℚ) * (x : ℚ)) := by
    rw [List.map_map]
    apply List.map_congr_left
    intro x _
    simp
  have hS : (List.map Int.cast xs : List ℚ) = xs.map (fun (x : Int) => (x : ℚ)) := rfl
  unfold sampleVariance sampleVarianceNum mean
  rw [sum_sq_dev, hcast]
  push_cast
  rw [hA, hS]
  generalize (xs.map (fun (x : Int) => (x : ℚ) * (x : ℚ))).sum = A
  generalize (xs.map (fun (x : Int) => (x : ℚ))).sum = S
  field_simp
  ring

/-- C11, as the code has it: the stored `StdDev` is what `stat.StdDev` returns for the
distinct run numbers of the record whenever that is not NaN; with exact arithmetic for
gonum's routine, a record with at least two distinct runs stores the square root of the
corrected sample variance `Σ (r - mean)² / (n - 1)` of the `n` elements of `Run`. -/
theorem analyze_stdDev_sample :
    (∀ (F : Type) (fo : FloatOps F) (sch : Schedule F) (cache : Cache) (start end_ : Int)
        (stats : List (TestStats F)), analyze fo sch cache start end_ = .ok stats →
        ∀ r ∈ stats, fo.isNaN (fo.stdDev (r.Run.map fo.ofInt)) = false →
          r.StdDev = fo.stdDev (r.Run.map fo.ofInt)) ∧
    (∀ (sch : Schedule XFloat) (cache : Cache) (start end_ : Int)
        (stats : List (TestStats XFloat)), analyze exactFloat sch cache start end_ = .ok stats →
        ∀ r ∈ stats, 2 ≤ r.Run.length →
          ∃ num den, r.StdDev = .sqrt num den ∧ (num : ℚ) / (den : ℚ) = sampleVariance r.Run) := by
  constructor
  · intro F fo sch cache start end_ stats h r hr hn
    obtain ⟨-, hperm⟩ := mem_scored_of_analyze fo sch cache start end_ stats h
    rw [scored_stdDev fo sch cache start end_ r (hperm.mem_iff.mp hr), hn]
    simp
  · intro sch cache start end_ stats h r hr hlen
    obtain ⟨-, hperm⟩ := mem_scored_of_analyze exactFloat sch cache start end_ stats h
    have hsd := scored_stdDev exactFloat sch cache start end_ r (hperm.mem_iff.mp hr)
    rw [exactFloat_stdDev r.Run hlen] at hsd
    refine ⟨_, _, ?_, sampleVariance_eq r.Run hlen⟩
    rw [hsd]
    rfl

/-- Witness of C11: in the end-to-end scenario `foo` has the runs 1 and 2 and stores the
square root of one half, the sample variance of `(2, 1)`. -/
theorem analyze_stdDev_sample_witness :
    analyze exactFloat demoSchedule scenarioCache 1 3 = .ok scenarioStats ∧
    sampleVariance [2, 1] = 1 / 2 ∧
    ∀ r ∈ scenarioStats, 2 ≤ r.Run.length →
      ∃ num den, r.StdDev = .sqrt num den ∧ (num : ℚ) / (den : ℚ) = sampleVariance r.Run :=
  ⟨rfl, by norm_num [sampleVariance, mean],
    analyze_stdDev_sample.2 demoSchedule scenarioCache 1 3 scenarioStats rfl⟩

/-- C11 as stated fails: in the end-to-end scenario `foo`, with the two distinct runs 1 and
2, stores the square root of `1/2`, while the uncorrected variance of its runs is `1/4`. -/
theorem stdDev_not_population :
    analyze exactFloat demoSchedule scenarioCache 1 3 = .ok scenarioStats ∧
    (∃ r ∈ scenarioStats, 2 ≤ r.Run.length ∧ r.StdDev = .sqrt 1 2 ∧
      populationVariance r.Run = 1 / 4 ∧
      ((1 : Int) : ℚ) / ((2 : Nat) : ℚ) ≠ populationVariance r.Run) := by
  refine ⟨rfl, _, List.mem_cons_self _ _, by decide, rfl, ?_, ?_⟩ <;>
    norm_num [populationVariance, mean]

/-! ## Completeness of the matcher on formatted identifiers -/

theorem starLoop_greedy {R : Type} (p : Char → Bool) (k : List Char → Option R)
    (c rest : List Char) (r : R) (hc : ∀ x ∈ c, p x = true)
    (hrest : ∀ x s, rest = x :: s → p x = false) (hk : k rest = some r) :
    starLoop p k (c ++ rest) = some (c, r) := by
  induction c with
  | nil =>
    cases rest with
    | nil => simp [starLoop, hk]
    | cons x s => simp [starLoop, hrest x s rfl, hk]
  | cons y c ih =>
    have hy : p y = true := hc y (List.mem_cons_self _ _)
    simp [starLoop, hy, ih (fun x hx => hc x (List.mem_cons_of_mem _ hx))]

theorem matchHere_star {p : Char → Bool} {g : Nat} {re : List Piece} {c rest : List Char}
    {cs : List (List Char)} (hc : ∀ x ∈ c, p x = true)
    (hrest : ∀ x s, rest = x :: s → p x = false) (hk : matchHere re rest = some cs) :
    matchHere (⟨.star p, g⟩ :: re) (c ++ rest) = some (c :: cs) := by
  simp [matchHere, starLoop_greedy p (matchHere re) c rest cs hc hrest hk]

theorem matchHere_plus {p : Char → Bool} {g : Nat} {re : List Piece} {c rest : List Char}
    {cs : List (List Char)} (hne : c ≠ []) (hc : ∀ x ∈ c, p x = true)
    (hrest : ∀ x s, rest = x :: s → p x = false) (hk : matchHere re rest = some cs) :
    matchHere (⟨.plus p, g⟩ :: re) (c ++ rest) = some (c :: cs) := by
  cases c with
  | nil => exact absurd rfl hne
  | cons y c =>
    have hy : p y = true := hc y (List.mem_cons_self _ _)
    simp [matchHere, hy,
      starLoop_greedy p (matchHere re) c rest cs (fun x hx => hc x (List.mem_cons_of_mem _ hx))
        hrest hk]

theorem matchHere_one {p : Char → Bool} {g : Nat} {re : List Piece} {x : Char}
    {rest : List Char} {cs : List (List Char)} (hx : p x = true)
    (hk : matchHere re rest = some cs) :
    matchHere (⟨.one p, g⟩ :: re) (x :: rest) = some ([x] :: cs) := by
  simp [matchHere, hx, hk]

theorem matchHere_lits {s : String} {re : List Piece} {rest : List Char}
    {cs : List (List Char)} (hk : matchHere re rest = some cs) :
    matchHere (lits s ++ re) (s.data ++ rest) = some (s.data.map (fun c => [c]) ++ cs) := by
  unfold lits
  induction s.data with
  | nil => simpa using hk
  | cons c l ih =>
    simp only [List.map_cons, List.cons_append]
    exact matchHere_one (by simp) ih

theorem findMatch_of_matchHere (re : List Piece) (s : List Char) (cs : List (List Char))
    (h : matchHere re s = some cs) : findMatch re s = some cs := by
  cases s with
  | nil => simpa [findMatch] using h
  | cons x s => simp [findMatch, h]

theorem groupText_lits (g : Nat) (hg : g ≠ 0) (s : String) (re : List Piece)
    (cs : List (List Char)) :
    groupText g (lits s ++ re) (s.data.map (fun c => [c]) ++ cs) = groupText g re cs := by
  unfold lits
  induction s.data with
  | nil => rfl
  | cons c l ih =>
    have : ¬ 0 = g := fun e => hg e.symm
    simp [groupText, ih, this]

theorem reTestName_eq :
    reTestName = lits "Tests / " ++ (⟨.star isLower, 1⟩ :: (lits " - " ++
      (⟨.plus isDigit, 2⟩ :: ⟨.one isDot, 2⟩ :: ⟨.plus isDigit, 2⟩ :: ⟨.one isDot, 2⟩ ::
        ⟨.plus isDigit, 2⟩ :: (lits " - test / " ++ [⟨.star isDot, 3⟩])))) := by
  simp [reTestName]

theorem parseTestName_of_findMatch (raw : String) (cs : List (List Char))
    (h : findMatch reTestName raw.data = some cs) :
    parseTestName raw = some ⟨String.mk (groupText 1 reTestName cs),
      String.mk (groupText 2 reTestName cs), String.mk (groupText 3 reTestName cs)⟩ := by
  unfold parseTestName findStringSubmatch
  simp only [h]
  rfl

theorem head_fails {p : Char → Bool} {a : Char} {t : List Char} (h : p a = false) :
    ∀ x s, a :: t = x :: s → p x = false := by
  intro x s e
  injection e with e1 _
  rw [← e1]
  exact h

theorem head_fails_append {p : Char → Bool} {l rest : List Char} {a : Char} {t : List Char}
    (hl : l = a :: t) (h : p a = false) : ∀ x s, l ++ rest = x :: s → p x = false := by
  subst hl
  intro x s e
  injection e with e1 _
  rw [← e1]
  exact h

theorem matchHere_formatted (p d1 d2 d3 n : List Char)
    (hp : ∀ x ∈ p, isLower x = true)
    (h1 : d1 ≠ []) (h2 : d2 ≠ []) (h3 : d3 ≠ [])
    (hd1 : ∀ x ∈ d1, isDigit x = true) (hd2 : ∀ x ∈ d2, isDigit x = true)
    (hd3 : ∀ x ∈ d3, isDigit x = true) (hn : ∀ x ∈ n, isDot x = true) :
    matchHere reTestName
      ("Tests / ".data ++ (p ++ (" - ".data ++ (d1 ++ '.' :: (d2 ++ '.' :: (d3 ++
        (" - test / ".data ++ (n ++ []))))))))
      = some ("Tests / ".data.map (fun c => [c]) ++ (p :: (" - ".data.map (fun c => [c]) ++
          (d1 :: ['.'] :: d2 :: ['.'] :: d3 ::
            (" - test / ".data.map (fun c => [c]) ++ [n]))))) := by
  have e6 : matchHere [⟨.star isDot, 3⟩] (n ++ []) = some [n] :=
    matchHere_star hn (by intro x s e; cases e) rfl
  have e5 := matchHere_lits (s := " - test / ") e6
  have e4 : matchHere (⟨.plus isDigit, 2⟩ :: (lits " - test / " ++ [⟨.star isDot, 3⟩]))
      (d3 ++ (" - test / ".data ++ (n ++ []))) = _ :=
    matchHere_plus h3 hd3 (head_fails_append (a := ' ') rfl (by decide)) e5
  have e3 := matchHere_one (p := isDot) (g := 2) (x := '.') (by decide) e4
  have e2 := matchHere_plus (g := 2) h2 hd2 (head_fails (by decide)) e3
  have e1 := matchHere_one (p := isDot) (g := 2) (x := '.') (by decide) e2
  have e0 := matchHere_plus (g := 2) h1 hd1 (head_fails (by decide)) e1
  have f1 := matchHere_lits (s := " - ") e0
  have f0 : matchHere (⟨.star isLower, 1⟩ :: _) (p ++ (" - ".data ++ _)) = _ :=
    matchHere_star hp (head_fails_append (a := ' ') rfl (by decide)) f1
  have f := matchHere_lits (s := "Tests / ") f0
  rw [reTestName_eq]
  exact f

theorem groupText_formatted (p d1 s1 d2 s2 d3 n : List Char) :
    groupText 1 reTestName
      ("Tests / ".data.map (fun c => [c]) ++ (p :: (" - ".data.map (fun c => [c]) ++
          (d1 :: s1 :: d2 :: s2 :: d3 ::
            (" - test / ".data.map (fun c => [c]) ++ [n]))))) = p ∧
    groupText 2 reTestName
      ("Tests / ".data.map (fun c => [c]) ++ (p :: (" - ".data.map (fun c => [c]) ++
          (d1 :: s1 :: d2 :: s2 :: d3 ::
            (" - test / ".data.map (fun c => [c]) ++ [n]))))) = d1 ++ (s1 ++ (d2 ++ (s2 ++ d3))) ∧
    groupText 3 reTestName
      ("Tests / ".data.map (fun c => [c]) ++ (p :: (" - ".data.map (fun c => [c]) ++
          (d1 :: s1 :: d2 :: s2 :: d3 ::
            (" - test / ".data.map (fun c => [c]) ++ [n]))))) = n := by
  rw [reTestName_eq]
  refine ⟨?_, ?_, ?_⟩
  · rw [groupText_lits 1 (by decide)]
    simp [groupText, lits]
  · rw [groupText_lits 2 (by decide)]
    simp [groupText, lits]
  · rw [groupText_lits 3 (by decide)]
    simp [groupText, lits]

theorem formatTestName_data (p v n : String) :
    (formatTestName p v n).data =
      "Tests / ".data ++ (p.data ++ (" - ".data ++ (v.data ++ (" - test / ".data ++
        (n.data ++ []))))) := by
  simp [formatTestName, String.data_append]

/-- C14, as the code has it: for every platform `p` of lowercase letters, every dotted
numeric triple `v` and every test name `n` without a newline, parsing
`"Tests / " + p + " - " + v + " - test / " + n` yields exactly the platform `p`, the version
`v` and the test name `n`. -/
theorem parse_format (p v n : String) (hp : ∀ x ∈ p.data, isLower x = true)
    (hv : DottedTriple v) (hn : ∀ x ∈ n.data, x ≠ '\n') :
    parseTestName (formatTestName p v n) = some ⟨p, v, n⟩ := by
  obtain ⟨d1, d2, d3, hvd, h1, h2, h3, hd1, hd2, hd3⟩ := hv
  have hn' : ∀ x ∈ n.data, isDot x = true := by
    intro x hx
    simp [isDot, hn x hx]
  have hm := matchHere_formatted p.data d1 d2 d3 n.data hp h1 h2 h3 hd1 hd2 hd3 hn'
  have hdata : (formatTestName p v n).data =
      "Tests / ".data ++ (p.data ++ (" - ".data ++ (d1 ++ '.' :: (d2 ++ '.' :: (d3 ++
        (" - test / ".data ++ (n.data ++ []))))))) := by
    rw [formatTestName_data, hvd]
    simp
  rw [← hdata] at hm
  rw [parseTestName_of_findMatch _ _ (findMatch_of_matchHere _ _ _ hm)]
  obtain ⟨g1, g2, g3⟩ := groupText_formatted p.data d1 ['.'] d2 ['.'] d3 n.data
  rw [g1, g2, g3]
  simp only [List.singleton_append]
  rw [← hvd]

/-- Witness of C14: the identifier of `foo/bar` on `linux`, version `1.22.3`. -/
theorem parse_format_witness :
    (∀ x ∈ "linux".data, isLower x = true) ∧ DottedTriple "1.22.3" ∧
    (∀ x ∈ "foo/bar - test / baz".data, x ≠ '\n') ∧
    formatTestName "linux" "1.22.3" "foo/bar - test / baz" =
      "Tests / linux - 1.22.3 - test / foo/bar - test / baz" ∧
    parseTestName (formatTestName "linux" "1.22.3" "foo/bar - test / baz") =
      some ⟨"linux", "1.22.3", "foo/bar - test / baz"⟩ :=
  ⟨by decide, ⟨['1'], ['2', '2'], ['3'], rfl, by decide, by decide, by decide, by decide,
      by decide, by decide⟩, by decide, by decide,
    parse_format "linux" "1.22.3" "foo/bar - test / baz" (by decide)
      ⟨['1'], ['2', '2'], ['3'], rfl, by decide, by decide, by decide, by decide, by decide,
        by decide⟩ (by decide)⟩

/-- C14 as stated fails: a test name with a newline is cut at the newline. -/
theorem parse_format_newline :
    (∀ x ∈ "linux".data, isLower x = true) ∧ DottedTriple "1.2.3" ∧
    parseTestName (formatTestName "linux" "1.2.3" "foo\nbar") = some ⟨"linux", "1.2.3", "foo"⟩ ∧
    parseTestName (formatTestName "linux" "1.2.3" "foo\nbar") ≠
      some ⟨"linux", "1.2.3", "foo\nbar"⟩ :=
  ⟨by decide, ⟨['1'], ['2'], ['3'], rfl, by decide, by decide, by decide, by decide, by decide,
      by decide⟩, by decide, by decide⟩

/-! ## The shape of the identifiers that parse -/

theorem forall₂_litPieces (l : List Char) (re : List Piece) (cs : List (List Char))
    (h : List.Forall₂ (fun pc c => pc.atom.Accepts c)
      (l.map (fun c => (⟨.one (fun x => x == c), 0⟩ : Piece)) ++ re) cs) :
    ∃ cs', cs = l.map (fun c => [c]) ++ cs' ∧
      List.Forall₂ (fun pc c => pc.atom.Accepts c) re cs' := by
  induction l generalizing cs with
  | nil => exact ⟨cs, rfl, h⟩
  | cons c l ih =>
    simp only [List.map_cons, List.cons_append] at h
    rw [List.forall₂_cons_left_iff] at h
    obtain ⟨b, u, hb, hu, hcs⟩ := h
    obtain ⟨x, hbx, hx⟩ := hb
    obtain ⟨cs', hu', hcs'⟩ := ih u hu
    have hxc : x = c := by simpa using hx
    refine ⟨cs', ?_, hcs'⟩
    rw [hcs, hbx, hu', hxc]
    rfl

theorem forall₂_lits (s : String) (re : List Piece) (cs : List (List Char))
    (h : List.Forall₂ (fun pc c => pc.atom.Accepts c) (lits s ++ re) cs) :
    ∃ cs', cs = s.data.map (fun c => [c]) ++ cs' ∧
      List.Forall₂ (fun pc c => pc.atom.Accepts c) re cs' :=
  forall₂_litPieces s.data re cs h

theorem flatten_singles (l : List Char) : (l.map (fun c => [c])).flatten = l := by
  induction l with
  | nil => rfl
  | cons c l ih => simp [ih]

/-- C13, as the code has it: an identifier that parses contains, after any text and before
any further text, the words `Tests / `, a platform of lowercase letters, ` - `, a version made
of three runs of digits with one character other than a newline between consecutive runs,
` - test / ` and a test name without a newline; the parser yields that platform, version and
name. Every string that does not contain such text fails to parse. -/
theorem parse_shape (raw : String) (p : Parsed) (h : parseTestName raw = some p) :
    ∃ (pre rest d1 d2 d3 : List Char) (c1 c2 : Char),
      raw.data = pre ++ ("Tests / ".data ++ (p.platform.data ++ (" - ".data ++
        (p.version.data ++ (" - test / ".data ++ (p.name.data ++ rest)))))) ∧
      (∀ x ∈ p.platform.data, isLower x = true) ∧
      p.version.data = d1 ++ c1 :: (d2 ++ c2 :: d3) ∧
      d1 ≠ [] ∧ d2 ≠ [] ∧ d3 ≠ [] ∧
      (∀ x ∈ d1, isDigit x = true) ∧ (∀ x ∈ d2, isDigit x = true) ∧
      (∀ x ∈ d3, isDigit x = true) ∧
      c1 ≠ '\n' ∧ c2 ≠ '\n' ∧ (∀ x ∈ p.name.data, x ≠ '\n') := by
  obtain ⟨cs, hm, hplat, hver, hname⟩ := parseTestName_eq raw p h
  obtain ⟨hf, pre, rest, hraw⟩ := findMatch_sound _ _ _ hm
  rw [reTestName_eq] at hf
  obtain ⟨cs1, e1, hf1⟩ := forall₂_lits _ _ _ hf
  rw [List.forall₂_cons_left_iff] at hf1
  obtain ⟨cp, cs2, hcp, hf2, e2⟩ := hf1
  obtain ⟨cs3, e3, hf3⟩ := forall₂_lits _ _ _ hf2
  rw [List.forall₂_cons_left_iff] at hf3
  obtain ⟨d1, cs4, hd1, hf4, e4⟩ := hf3
  rw [List.forall₂_cons_left_iff] at hf4
  obtain ⟨s1, cs5, hs1, hf5, e5⟩ := hf4
  rw [List.forall₂_cons_left_iff] at hf5
  obtain ⟨d2, cs6, hd2, hf6, e6⟩ := hf5
  rw [List.forall₂_cons_left_iff] at hf6
  obtain ⟨s2, cs7, hs2, hf7, e7⟩ := hf6
  rw [List.forall₂_cons_left_iff] at hf7
  obtain ⟨d3, cs8, hd3, hf8, e8⟩ := hf7
  obtain ⟨cs9, e9, hf9⟩ := forall₂_lits _ _ _ hf8
  rw [List.forall₂_cons_left_iff] at hf9
  obtain ⟨cn, cs10, hcn, hf10, e10⟩ := hf9
  have e11 : cs10 = [] := by
    cases hf10
    rfl
  obtain ⟨c1, es1, hc1⟩ := hs1
  obtain ⟨c2, es2, hc2⟩ := hs2
  have hcs : cs = "Tests / ".data.map (fun c => [c]) ++ (cp :: (" - ".data.map (fun c => [c]) ++
      (d1 :: [c1] :: d2 :: [c2] :: d3 ::
        (" - test / ".data.map (fun c => [c]) ++ [cn])))) := by
    rw [e1, e2, e3, e4, e5, e6, e7, e8, e9, e10, e11, es1, es2]
  rw [hcs] at hplat hver hname hraw
  obtain ⟨g1, g2, g3⟩ := groupText_formatted cp d1 [c1] d2 [c2] d3 cn
  rw [g1] at hplat
  rw [g2] at hver
  rw [g3] at hname
  have hpd : p.platform.data = cp := by rw [hplat]
  have hvd : p.version.data = d1 ++ c1 :: (d2 ++ c2 :: d3) := by
    rw [hver]
    simp
  have hnd : p.name.data = cn := by rw [hname]
  have hnl : ∀ c : Char, isDot c = true → c ≠ '\n' := by
    intro c hc e
    rw [e] at hc
    revert hc
    decide
  refine ⟨pre, rest, d1, d2, d3, c1, c2, ?_, ?_, hvd, hd1.1, hd2.1, hd3.1, hd1.2, hd2.2, hd3.2,
    hnl c1 hc1, hnl c2 hc2, ?_⟩
  · rw [hraw, hpd, hvd, hnd]
    simp [flatten_singles, List.flatten_append, List.flatten_cons]
  · rw [hpd]
    exact hcp
  · rw [hnd]
    exact fun x hx => hnl x (hcn x hx)

/-- Witness of C13, on an identifier that parses. -/
theorem parse_shape_witness :
    parseTestName "Tests / linux - 1.2.3 - test / foo" = some ⟨"linux", "1.2.3", "foo"⟩ ∧
    ∃ (pre rest d1 d2 d3 : List Char) (c1 c2 : Char),
      "Tests / linux - 1.2.3 - test / foo".data =
        pre ++ ("Tests / ".data ++ ("linux".data ++ (" - ".data ++
          ("1.2.3".data ++ (" - test / ".data ++ ("foo".data ++ rest)))))) ∧
      (∀ x ∈ "linux".data, isLower x = true) ∧
      "1.2.3".data = d1 ++ c1 :: (d2 ++ c2 :: d3) ∧
      d1 ≠ [] ∧ d2 ≠ [] ∧ d3 ≠ [] ∧
      (∀ x ∈ d1, isDigit x = true) ∧ (∀ x ∈ d2, isDigit x = true) ∧
      (∀ x ∈ d3, isDigit x = true) ∧
      c1 ≠ '\n' ∧ c2 ≠ '\n' ∧ (∀ x ∈ "foo".data, x ≠ '\n') :=
  ⟨by decide,
    parse_shape "Tests / linux - 1.2.3 - test / foo" ⟨"linux", "1.2.3", "foo"⟩ (by decide)⟩

/-- C13 as stated fails: an identifier with text before `Tests / ` parses, and so does one
whose version separators are not dots. -/
theorem parse_accepts_other_shapes :
    parseTestName "job 7: Tests / linux - 1.2.3 - test / foo" =
      some ⟨"linux", "1.2.3", "foo"⟩ ∧
    parseTestName "Tests / linux - 1x2y3 - test / foo" = some ⟨"linux", "1x2y3", "foo"⟩ := by
  decide

end FlakeReport
